import Mathlib

/-!
Verification development for the quant_framework repository.

This file gives a shallow embedding of the core runtime of the framework:

* `src/core/portfolio.py` — `Portfolio` with T+0/T+1 settlement
  (`buy`, `sell`, `settle_day`, `get_available_quantity`, `get_total_value`);
* `src/core/engine.py` — `EventEngine` (`register`, `use`, `put`, `start`,
  `get_stats`) with priority dispatch, middleware chain and error isolation;
* `src/plugins/manager.py` — `PluginManager` (registration, dependency
  checking, DFS cycle detection, Kahn topological ordering, lifecycle);
* `src/contrib/backtest/simple_backtest.py` — the backtest driver
  (`run`, `_process_bar`, `_match_order_v2`, `_normalize_orders`).

Modelling conventions:

* Python `dict`s are association lists (`List (key × value)`); insertion
  assigns in place when the key is present and appends otherwise, exactly
  like CPython dicts, so iteration order is preserved.
* Python `float` amounts are modelled as exact rationals `ℚ`; `int`s as `ℤ`;
  `datetime.date` values as `ℕ`.
* Python exceptions (`ValueError`) are modelled by `Option`/`Except`:
  `none`/`.error` is a raise, `some`/`.ok` a normal return.
* User-supplied callables (handlers, middlewares, strategies) are modelled
  as pure functions returning an explicit outcome, with a `raises`
  constructor standing for a thrown exception.
* The event engine's unbounded recursive re-dispatch (`put` calling itself
  for a handler-returned event) is modelled with an explicit fuel parameter;
  all theorems below are insensitive to the fuel above the stated bound.
-/

namespace QF

/-! ## Association-list primitives (Python `dict` semantics) -/

/-- `d.get(k)`: first binding of `k`, if any. -/
def alGet {α β : Type} [DecidableEq α] (l : List (α × β)) (k : α) : Option β :=
  (l.find? (fun e => decide (e.1 = k))).map (fun e => e.2)

/-- `d[k] = v`: update in place when `k` is present, else append. -/
def alSet {α β : Type} [DecidableEq α] (l : List (α × β)) (k : α) (v : β) :
    List (α × β) :=
  if l.any (fun e => decide (e.1 = k)) then
    l.map (fun e => if e.1 = k then (k, v) else e)
  else l ++ [(k, v)]

/-- `d.pop(k, default)` / `del d[k]`: remove all bindings of `k`. -/
def alDel {α β : Type} [DecidableEq α] (l : List (α × β)) (k : α) :
    List (α × β) :=
  l.filter (fun e => decide (¬ e.1 = k))

/-- The keys of an association list are pairwise distinct (true for every
list representing a Python `dict`). -/
def alNodup {α β : Type} (l : List (α × β)) : Prop :=
  (l.map Prod.fst).Nodup

/-! ## Portfolio (`src/core/portfolio.py`) -/

/-- `TradeMode = Literal["T+0", "T+1"]`. -/
inductive TradeMode where
  | t0
  | t1
deriving DecidableEq

/-- `Position` dataclass: symbol, total quantity, weighted average cost,
sellable quantity, latest buy date. -/
structure Position where
  symbol : String
  quantity : ℤ
  cost : ℚ
  available : ℤ
  buyDate : Option ℕ
deriving DecidableEq

/-- `Portfolio` state: initial cash, cash, positions dict, trade mode, and
the `_pending_t1` dict mapping a date to a symbol→quantity bucket. -/
structure Portfolio where
  initialCash : ℚ
  cash : ℚ
  positions : List (String × Position)
  tradeMode : TradeMode
  pendingT1 : List (ℕ × List (String × ℤ))
deriving DecidableEq

/-- `Portfolio.__init__`: rejects negative initial cash (mode validity is
enforced by the `TradeMode` type). -/
def Portfolio.new (initialCash : ℚ) (tradeMode : TradeMode) : Option Portfolio :=
  if initialCash < 0 then none
  else some ⟨initialCash, initialCash, [], tradeMode, []⟩

/-- `Portfolio._validate_trade_input`. -/
def validateTradeInput (symbol : String) (quantity : ℤ) (price : ℚ) : Bool :=
  !(symbol == "") && decide (0 < quantity) && decide (0 < price)

/-- `date_bucket = self._pending_t1.setdefault(date, {});
date_bucket[symbol] = date_bucket.get(symbol, 0) + quantity`. -/
def pendAdd (pend : List (ℕ × List (String × ℤ))) (d : ℕ) (symbol : String)
    (quantity : ℤ) : List (ℕ × List (String × ℤ)) :=
  let bucket := (alGet pend d).getD []
  let bucket' := alSet bucket symbol (((alGet bucket symbol).getD 0) + quantity)
  alSet pend d bucket'

/-- `Portfolio.buy`: validate, check cash, deduct cash, create or merge the
position (weighted-average cost), and in T+1 record the pending quantity. -/
def Portfolio.buy (p : Portfolio) (symbol : String) (quantity : ℤ) (price : ℚ)
    (d : ℕ) : Option Portfolio :=
  if !(validateTradeInput symbol quantity price) then none
  else
    let amount : ℚ := quantity * price
    if p.cash < amount then none
    else
      let positions' :=
        match alGet p.positions symbol with
        | none =>
          let available : ℤ := if p.tradeMode = TradeMode.t0 then quantity else 0
          alSet p.positions symbol ⟨symbol, quantity, price, available, some d⟩
        | some existing =>
          let totalCost : ℚ := existing.cost * existing.quantity + amount
          let totalQuantity : ℤ := existing.quantity + quantity
          let available : ℤ :=
            if p.tradeMode = TradeMode.t0 then existing.available + quantity
            else existing.available
          alSet p.positions symbol
            ⟨symbol, totalQuantity, totalCost / totalQuantity, available, some d⟩
      let pending' :=
        if p.tradeMode = TradeMode.t1 then pendAdd p.pendingT1 d symbol quantity
        else p.pendingT1
      some { p with cash := p.cash - amount, positions := positions',
                    pendingT1 := pending' }

/-- `Portfolio.get_available_quantity`: `quantity` in T+0, `available` in T+1
(the date argument is ignored, as in the source). -/
def Portfolio.getAvailableQuantity (p : Portfolio) (symbol : String) (_d : ℕ) : ℤ :=
  match alGet p.positions symbol with
  | none => 0
  | some pos =>
    match p.tradeMode with
    | TradeMode.t0 => pos.quantity
    | TradeMode.t1 => pos.available

/-- `Portfolio.sell`: validate, require the position to exist with enough
total and available quantity, realize PnL, add proceeds, shrink the
position (deleting it at zero, resynchronizing `available` in T+0).
Returns the realized PnL together with the new state. -/
def Portfolio.sell (p : Portfolio) (symbol : String) (quantity : ℤ) (price : ℚ)
    (d : ℕ) : Option (ℚ × Portfolio) :=
  if !(validateTradeInput symbol quantity price) then none
  else
    match alGet p.positions symbol with
    | none => none
    | some position =>
      if position.quantity < quantity then none
      else
        let available := p.getAvailableQuantity symbol d
        if available < quantity then none
        else
          let realizedPnl : ℚ := (price - position.cost) * quantity
          let q' := position.quantity - quantity
          let a' := position.available - quantity
          let positions' :=
            if q' = 0 then alDel p.positions symbol
            else if p.tradeMode = TradeMode.t0 then
              alSet p.positions symbol
                { position with quantity := q', available := q' }
            else
              alSet p.positions symbol
                { position with quantity := q', available := a' }
          some (realizedPnl,
            { p with cash := p.cash + quantity * price, positions := positions' })

/-- The body of `settle_day`'s loop: for each released `(symbol, qty)` pair,
add `qty` to the position's `available` when the position still exists. -/
def settleRelease (positions : List (String × Position))
    (released : List (String × ℤ)) : List (String × Position) :=
  released.foldl
    (fun ps e =>
      match alGet ps e.1 with
      | none => ps
      | some pos => alSet ps e.1 { pos with available := pos.available + e.2 })
    positions

/-- `Portfolio.settle_day`: a no-op in T+0; in T+1, pop `pendingT1[date]` and
release the recorded quantities into `available`. -/
def Portfolio.settleDay (p : Portfolio) (d : ℕ) : Portfolio :=
  if p.tradeMode ≠ TradeMode.t1 then p
  else
    let released := (alGet p.pendingT1 d).getD []
    { p with positions := settleRelease p.positions released,
             pendingT1 := alDel p.pendingT1 d }

/-- `Portfolio.get_total_value`: cash plus market value of all positions,
falling back to average cost for symbols without a quoted price. -/
def Portfolio.getTotalValue (p : Portfolio) (prices : List (String × ℚ)) : ℚ :=
  p.cash +
    (p.positions.map
      (fun e => (e.2.quantity : ℚ) * ((alGet prices e.1).getD e.2.cost))).sum

/-- One portfolio-level call of the kind quantified over by the invariants:
`buy`, `sell` (the returned PnL is the `ℚ`), or `settle_day`. -/
inductive TradeOp where
  | buy (symbol : String) (quantity : ℤ) (price : ℚ) (d : ℕ)
  | sell (symbol : String) (quantity : ℤ) (price : ℚ) (d : ℕ)
  | settle (d : ℕ)

/-- Apply one call; `none` when the call's precondition fails (a raise). -/
def Portfolio.applyOp (p : Portfolio) : TradeOp → Option Portfolio
  | TradeOp.buy s q pr d => p.buy s q pr d
  | TradeOp.sell s q pr d => (p.sell s q pr d).map (fun r => r.2)
  | TradeOp.settle d => some (p.settleDay d)

/-- Run a sequence of calls, all of which must satisfy their preconditions. -/
def Portfolio.runOps (p : Portfolio) : List TradeOp → Option Portfolio
  | [] => some p
  | op :: ops =>
    match p.applyOp op with
    | none => none
    | some p' => p'.runOps ops

/-- Run a sequence of calls, accumulating the realized PnL values returned
by the successful `sell` calls. -/
def Portfolio.runOpsPnl (p : Portfolio) : List TradeOp → Option (Portfolio × ℚ)
  | [] => some (p, 0)
  | TradeOp.buy s q pr d :: ops =>
    match p.buy s q pr d with
    | none => none
    | some p' => p'.runOpsPnl ops
  | TradeOp.sell s q pr d :: ops =>
    match p.sell s q pr d with
    | none => none
    | some (r, p') =>
      match p'.runOpsPnl ops with
      | none => none
      | some (pf, acc) => some (pf, r + acc)
  | TradeOp.settle d :: ops => (p.settleDay d).runOpsPnl ops

/-- Sum of `quantity * avgCost` over the held positions. -/
def holdingsValue (p : Portfolio) : ℚ :=
  (p.positions.map (fun e => (e.2.quantity : ℚ) * e.2.cost)).sum

/-- Sum over all pending buckets of the quantity recorded for one symbol. -/
def pendSumFor (pend : List (ℕ × List (String × ℤ))) (s : String) : ℤ :=
  (pend.map (fun e => ((alGet e.2 s).getD 0))).sum

/-- The quantity recorded in `pendingT1[d]` for symbol `s` (0 when absent). -/
def bGetPend (pend : List (ℕ × List (String × ℤ))) (d : ℕ) (s : String) : ℤ :=
  (alGet ((alGet pend d).getD []) s).getD 0

/-- Quantity of `s` currently held (0 when not held). -/
def posQty (p : Portfolio) (s : String) : ℤ :=
  ((alGet p.positions s).map Position.quantity).getD 0

/-- Available quantity of `s` currently held (0 when not held). -/
def posAvail (p : Portfolio) (s : String) : ℤ :=
  ((alGet p.positions s).map Position.available).getD 0

/-- Well-formedness of one stored position. -/
def Position.wf (pos : Position) : Prop :=
  0 < pos.quantity ∧ 0 ≤ pos.available ∧ pos.available ≤ pos.quantity

/-- The portfolio invariant maintained by `buy`/`sell`/`settle_day`:
association lists are duplicate-free, every stored position is well formed,
in T+0 `available` always equals `quantity` and nothing is pending, and in
T+1 the pending quantities are nonnegative and, per symbol, sum to at most
`quantity - available`. -/
def Portfolio.Inv (p : Portfolio) : Prop :=
  alNodup p.positions ∧ alNodup p.pendingT1 ∧
  (∀ e ∈ p.pendingT1, alNodup e.2) ∧
  (∀ e ∈ p.positions, e.2.wf) ∧
  (p.tradeMode = TradeMode.t0 →
    (∀ e ∈ p.positions, e.2.available = e.2.quantity) ∧ p.pendingT1 = []) ∧
  (p.tradeMode = TradeMode.t1 →
    (∀ e ∈ p.pendingT1, ∀ b ∈ e.2, 0 ≤ b.2) ∧
    (∀ s, pendSumFor p.pendingT1 s ≤ posQty p s - posAvail p s))

/-! ## Event engine (`src/core/engine.py`) -/

/-- `EventType` enumeration. -/
inductive EventType where
  | bar
  | tick
  | quote
  | order
  | trade
  | position
  | start
  | stop
  | error
  | riskCheck
  | riskTrigger
  | signal
  | strategyInit
  | strategyStop
deriving DecidableEq

/-- `Event` object; the payload is modelled as an integer, and the
`timestamp`/`source` bookkeeping fields are omitted (no dispatch decision
reads them). -/
structure Event where
  type : EventType
  data : ℤ
deriving DecidableEq

/-- Outcome of one handler invocation. `raises` models a thrown exception;
`done` models returning `None` or returning the incoming event object itself
(neither re-dispatches, since `put` checks `result is not current_event`);
`emit e` models returning a distinct event object `e`, which `put`
re-dispatches recursively. -/
inductive HandlerRes where
  | raises
  | done
  | emit (e : Event)
deriving DecidableEq

/-- Outcome of one middleware invocation. `raises` models a thrown
exception, `drop` a `None` return (halt propagation), `pass e` a returned
event `e` that the chain continues with. -/
inductive MiddlewareRes where
  | raises
  | drop
  | pass (e : Event)
deriving DecidableEq

/-- `HandlerInfo`: the handler behaviour and its priority, plus a ghost
registration index `id` (assigned from a running counter at registration
time) used to state ordering properties. -/
structure HandlerInfo where
  id : ℕ
  priority : ℤ
  beh : Event → HandlerRes

/-- A registered middleware with its ghost registration index. -/
structure MiddlewareInfo where
  id : ℕ
  beh : Event → MiddlewareRes

/-- `EventEngine` state: handler lists per type (`defaultdict(list)` is a
total function into lists), the middleware list, the running flag and the
two counters, plus the ghost id counter. -/
structure EngineState where
  handlers : EventType → List HandlerInfo
  middlewares : List MiddlewareInfo
  running : Bool
  eventCount : ℕ
  errorCount : ℕ
  nextId : ℕ

/-- `EventEngine.__init__`. -/
def EngineState.new : EngineState :=
  ⟨fun _ => [], [], false, 0, 0, 0⟩

/-- Stable insertion of a handler into a priority-descending list: the new
element goes after every element of priority ≥ its own.  Folding this over
a list is exactly the stable descending sort that Python's
`list.sort(reverse=True)` performs on `HandlerInfo` (whose `__lt__` compares
priorities). -/
def insertHandler (h : HandlerInfo) : List HandlerInfo → List HandlerInfo
  | [] => [h]
  | x :: xs =>
    if x.priority < h.priority then h :: x :: xs else x :: insertHandler h xs

/-- Stable sort by descending priority (`self._handlers[event_type].sort(reverse=True)`). -/
def sortHandlers (l : List HandlerInfo) : List HandlerInfo :=
  l.foldl (fun acc h => insertHandler h acc) []

/-- `EventEngine.register`: append a `HandlerInfo` then re-sort the type's
list by descending priority (stably). -/
def EngineState.register (st : EngineState) (t : EventType)
    (beh : Event → HandlerRes) (priority : ℤ) : EngineState :=
  let info : HandlerInfo := ⟨st.nextId, priority, beh⟩
  { st with
    handlers := fun t' =>
      if t' = t then sortHandlers (st.handlers t ++ [info]) else st.handlers t',
    nextId := st.nextId + 1 }

/-- `EventEngine.use`: append a middleware. -/
def EngineState.use (st : EngineState) (beh : Event → MiddlewareRes) :
    EngineState :=
  { st with middlewares := st.middlewares ++ [⟨st.nextId, beh⟩],
            nextId := st.nextId + 1 }

/-- A record of one callable invocation during dispatch, together with the
event it received (`mw` for middlewares, `hd` for handlers). -/
inductive DispatchCall where
  | mw (id : ℕ) (e : Event)
  | hd (id : ℕ) (e : Event)
deriving DecidableEq

/-- The middleware loop of `put`: run each middleware on the current event.
A raise is counted in `errorCount` and leaves the current event unchanged;
a `None` return stops propagation (`none` result); otherwise the returned
event replaces the current one. Also returns the trace of invocations. -/
def runMiddlewares (st : EngineState) :
    List MiddlewareInfo → Event → EngineState × Option Event × List DispatchCall
  | [], e => (st, some e, [])
  | m :: ms, e =>
    match m.beh e with
    | MiddlewareRes.raises =>
      let r := runMiddlewares { st with errorCount := st.errorCount + 1 } ms e
      (r.1, r.2.1, DispatchCall.mw m.id e :: r.2.2)
    | MiddlewareRes.drop => (st, none, [DispatchCall.mw m.id e])
    | MiddlewareRes.pass e' =>
      let r := runMiddlewares st ms e'
      (r.1, r.2.1, DispatchCall.mw m.id e :: r.2.2)

/-- The handler loop of `put`: invoke each handler on the (possibly
substituted) event; a raise is counted and the loop continues; a returned
distinct event is re-dispatched through `recur` (which a caller instantiates
with `put` at the remaining fuel). -/
def runHandlers (recur : EngineState → Event → EngineState × List DispatchCall)
    (st : EngineState) (hs : List HandlerInfo) (cur : Event) :
    EngineState × List DispatchCall :=
  match hs with
  | [] => (st, [])
  | h :: rest =>
    match h.beh cur with
    | HandlerRes.raises =>
      let r := runHandlers recur { st with errorCount := st.errorCount + 1 } rest cur
      (r.1, DispatchCall.hd h.id cur :: r.2)
    | HandlerRes.done =>
      let r := runHandlers recur st rest cur
      (r.1, DispatchCall.hd h.id cur :: r.2)
    | HandlerRes.emit e' =>
      let r1 := recur st e'
      let r := runHandlers recur r1.1 rest cur
      (r.1, DispatchCall.hd h.id cur :: r1.2 ++ r.2)

/-- `EventEngine.put` with explicit recursion fuel: drop when not running,
increment `eventCount`, run the middleware chain, then dispatch to the
handlers of the current event's type.  Returns the new state and the trace
of middleware/handler invocations. -/
def putFuel : ℕ → EngineState → Event → EngineState × List DispatchCall
  | 0, st, _ => (st, [])
  | fuel + 1, st, e =>
    if !st.running then (st, [])
    else
      let st1 := { st with eventCount := st.eventCount + 1 }
      let rmw := runMiddlewares st1 st1.middlewares e
      match rmw.2.1 with
      | none => (rmw.1, rmw.2.2)
      | some cur =>
        let rh := runHandlers (putFuel fuel) rmw.1 (rmw.1.handlers cur.type) cur
        (rh.1, rmw.2.2 ++ rh.2)

/-- The synthetic event emitted by `start`. -/
def startEvent : Event := ⟨EventType.start, 0⟩

/-- `EventEngine.start`: set running, reset both counters, then `put` the
synthetic `START` event. -/
def EngineState.start (st : EngineState) (fuel : ℕ) :
    EngineState × List DispatchCall :=
  putFuel fuel { st with running := true, eventCount := 0, errorCount := 0 }
    startEvent

/-- `EventEngine.stop`: `put` the synthetic `STOP` event, then clear the
running flag. -/
def EngineState.stop (st : EngineState) (fuel : ℕ) :
    EngineState × List DispatchCall :=
  let r := putFuel fuel st ⟨EventType.stop, 0⟩
  ({ r.1 with running := false }, r.2)

/-- `EventEngine.get_stats` (the fields the claims mention:
`running`, `event_count`, `error_count`). -/
def EngineState.getStats (st : EngineState) : Bool × ℕ × ℕ :=
  (st.running, st.eventCount, st.errorCount)

/-- One registration call (`register(type, handler, priority)` or
`use(middleware)`). -/
inductive RegOp where
  | register (t : EventType) (beh : Event → HandlerRes) (priority : ℤ)
  | use (beh : Event → MiddlewareRes)

/-- Apply a sequence of registration calls to an engine state. -/
def EngineState.applyRegs (st : EngineState) : List RegOp → EngineState
  | [] => st
  | RegOp.register t beh priority :: ops =>
    (st.register t beh priority).applyRegs ops
  | RegOp.use beh :: ops => (st.use beh).applyRegs ops

/-- Descending-priority order with ties broken by registration index. -/
def handlerOrdered (l : List HandlerInfo) : Prop :=
  l.Pairwise (fun a b => b.priority < a.priority ∨
    (a.priority = b.priority ∧ a.id < b.id))

/-! ## Plugin manager (`src/plugins/manager.py`)

`setup`/`teardown` are external callables; the model returns, from
`initialize` and `shutdown`, the sequence of plugin names whose
`setup(context)` (resp. `teardown(context)`) is invoked, in invocation
order.  An `Except.error` result models a raised `ValueError`, in which
case the loop calling `setup` is never reached, so no `setup` runs. -/

/-- The data of one registered plugin that dependency resolution reads. -/
structure PluginR where
  name : String
  dependencies : List String
deriving DecidableEq

/-- `PluginManager` registry: a name-keyed dict of plugins. -/
structure Manager where
  plugins : List (String × PluginR)
deriving DecidableEq

/-- `PluginManager.register`: reject duplicate names, else store under
`plugin.name`. -/
def Manager.registerPlugin (m : Manager) (p : PluginR) : Option Manager :=
  if (m.plugins.map Prod.fst).contains p.name then none
  else some ⟨m.plugins ++ [(p.name, p)]⟩

/-- Register a list of plugins into an empty manager. -/
def Manager.registerAll : List PluginR → Option Manager
  | [] => some ⟨[]⟩
  | p :: ps =>
    match Manager.registerAll ps with
    | none => none
    | some m =>
      if (m.plugins.map Prod.fst).contains p.name then none
      else some ⟨(p.name, p) :: m.plugins⟩

/-- Registered plugin names, in registration order. -/
def Manager.names (m : Manager) : List String := m.plugins.map Prod.fst

/-- The dependency list of a registered plugin (`[]` when unregistered;
`initialize` only reaches dependency iteration after `_check_dependencies`
has verified every dependency is registered). -/
def Manager.depsOf (m : Manager) (n : String) : List String :=
  ((alGet m.plugins n).map PluginR.dependencies).getD []

/-- `p` depends directly on `d`. -/
def Manager.DependsOn (m : Manager) (p d : String) : Prop :=
  d ∈ m.depsOf p

/-- The dependency graph has a cycle: some plugin depends on itself through
one or more dependency edges. -/
def Manager.HasCycle (m : Manager) : Prop :=
  ∃ x, Relation.TransGen m.DependsOn x x

/-- `PluginManager._check_dependencies`: every dependency of every plugin is
registered (`true` = the source returns normally, `false` = it raises). -/
def Manager.checkDependencies (m : Manager) : Bool :=
  m.plugins.all (fun e =>
    e.2.dependencies.all (fun d => (m.plugins.map Prod.fst).contains d))

/-- The loop body of `_detect_cycles.dfs` over the dependency list, threading
the visited set; `recur` is instantiated with `dfs` at the remaining fuel. -/
def dfsDeps (recur : String → List String → List String →
      Except Unit (List String)) :
    List String → List String → List String → Except Unit (List String)
  | [], _, visited => Except.ok visited
  | d :: ds, visiting, visited =>
    match recur d visiting visited with
    | Except.error u => Except.error u
    | Except.ok visited' => dfsDeps recur ds visiting visited'

/-- `_detect_cycles.dfs` with recursion fuel (Python's recursion is bounded
by the interpreter stack; the fuel used below always suffices, see
`dfsComplete`).  Raises (`error`) when the current name is on the visiting
stack; returns the enlarged visited set otherwise. -/
def dfs (m : Manager) : ℕ → String → List String → List String →
    Except Unit (List String)
  | 0, _, _, _ => Except.error ()
  | fuel + 1, name, visiting, visited =>
    if name ∈ visiting then Except.error ()
    else if name ∈ visited then Except.ok visited
    else
      match dfsDeps (dfs m fuel) (m.depsOf name) (name :: visiting) visited with
      | Except.error u => Except.error u
      | Except.ok visited' => Except.ok (name :: visited')

/-- The loop of `_detect_cycles`: run `dfs` from every not-yet-visited
plugin name. -/
def detectLoop (m : Manager) (fuel : ℕ) :
    List String → List String → Except Unit (List String)
  | [], visited => Except.ok visited
  | name :: rest, visited =>
    if name ∈ visited then detectLoop m fuel rest visited
    else
      match dfs m fuel name [] visited with
      | Except.error u => Except.error u
      | Except.ok visited' => detectLoop m fuel rest visited'

/-- `PluginManager._detect_cycles`. -/
def Manager.detectCycles (m : Manager) : Except Unit Unit :=
  match detectLoop m (m.plugins.length + 1) (m.names) [] with
  | Except.error u => Except.error u
  | Except.ok _ => Except.ok ()

/-- The reverse-edge adjacency of `_resolve_order`: all plugins that list
`d` among their dependencies, in graph-construction order, with
multiplicity (one edge per listed occurrence). -/
def Manager.dependentsOf (m : Manager) (d : String) : List String :=
  m.plugins.flatMap (fun e =>
    (e.2.dependencies.filter (fun x => decide (x = d))).map (fun _ => e.1))

/-- Initial indegree of a plugin: the number of its dependency edges. -/
def Manager.indegInit (m : Manager) (n : String) : ℤ := (m.depsOf n).length

/-- The neighbor-update loop of Kahn's algorithm: decrement each dependent's
indegree, enqueueing it when the count reaches zero. -/
def kahnDecr : List String → ((String → ℤ) × List String) →
    ((String → ℤ) × List String)
  | [], acc => acc
  | n :: ns, acc =>
    let v := acc.1 n - 1
    let indeg' : String → ℤ := fun x => if x = n then v else acc.1 x
    let queue' := if v = 0 then acc.2 ++ [n] else acc.2
    kahnDecr ns (indeg', queue')

/-- The `while queue` loop of `_resolve_order`, with fuel (the fuel used
below always suffices, see `kahnSpec`). -/
def kahnLoop (m : Manager) : ℕ → (String → ℤ) → List String → List String →
    List String
  | 0, _, _, order => order
  | fuel + 1, indeg, queue, order =>
    match queue with
    | [] => order
    | current :: rest =>
      let step := kahnDecr (m.dependentsOf current) (indeg, rest)
      kahnLoop m fuel step.1 step.2 (order ++ [current])

/-- `PluginManager._resolve_order` without its final length check: Kahn's
algorithm seeded with the zero-indegree plugins in registration order. -/
def Manager.resolveOrder (m : Manager) : List String :=
  kahnLoop m (m.plugins.length + 1) m.indegInit
    (m.names.filter (fun n => decide (m.indegInit n = 0))) []

/-- `PluginManager.initialize` when `_initialized` is false: validate
dependencies, detect cycles, resolve the order, check its length, then call
`setup(context)` on each plugin in order.  The `ok` payload is the sequence
of `setup` calls made; on `error` no `setup` was called. -/
def initPlugins (m : Manager) : Except String (List String) :=
  if !m.checkDependencies then Except.error "Missing dependency"
  else
    match m.detectCycles with
    | Except.error _ => Except.error "Dependency cycle detected"
    | Except.ok _ =>
      let order := m.resolveOrder
      if order.length ≠ m.plugins.length then
        Except.error "Dependency cycle detected"
      else Except.ok order

/-- `PluginManager.shutdown` after a successful `initialize` that stored
`initOrder`: the sequence of `teardown(context)` calls, which walks the
stored order in reverse. -/
def shutdownPlugins (initOrder : List String) : List String :=
  initOrder.reverse

/-! ## Backtest driver (`src/contrib/backtest/simple_backtest.py`)

The driver is modelled date-coercion-free: dates are `ℕ` throughout (the
source's `_coerce_date` round-trips `date` values).  `Option DriverState`
results model uncaught exceptions escaping the driver (`none`); the caught
`ValueError` of a failed `sell` never produces `none`. -/

/-- Engine configuration (constructor arguments of `SimpleBacktestEngine`). -/
structure BTConfig where
  initialCash : ℚ
  tradeMode : TradeMode
  commissionRate : ℚ
  slippage : ℚ

/-- A raw input bar record (the fields the driver reads). -/
structure RawBar where
  bdate : ℕ
  symbol : String
  close : ℚ

/-- A dict- or object-shaped strategy signal (the fields
`_normalize_orders` reads; `side` stands for `side`/`direction`). -/
structure RawSignal where
  symbol : String
  side : String
  quantity : Option ℤ
  orderType : Option String
  price : Option ℚ

/-- A normalized order produced by `_normalize_orders`. -/
structure NOrder where
  symbol : String
  side : String
  quantity : ℤ
  orderType : String
  price : Option ℚ

/-- A matched trade before commission/PnL are attached
(the dict `_match_order_v2` returns). -/
structure MatchedTrade where
  tdate : ℕ
  symbol : String
  side : String
  quantity : ℤ
  price : ℚ
  amount : ℚ
deriving DecidableEq

/-- A recorded trade (after commission and PnL are attached). -/
structure TradeRec where
  tdate : ℕ
  symbol : String
  side : String
  quantity : ℤ
  price : ℚ
  amount : ℚ
  commission : ℚ
  pnl : ℚ
deriving DecidableEq

/-- The driver's mutable state during `run`. -/
structure DriverState where
  portfolio : Portfolio
  latestPrices : List (String × ℚ)
  trades : List TradeRec
  netValues : List (ℕ × ℚ)
deriving DecidableEq

/-- Python `str.upper()`, character-wise (`String.toUpper` is the same
character map, evaluated here on the character list). -/
def upperStr (s : String) : String := ⟨s.data.map Char.toUpper⟩

/-- `SimpleBacktestEngine._normalize_orders`: `None` (or a non-list) becomes
no orders; otherwise each signal yields an order with upper-cased side,
quantity defaulting to 1 when absent or zero (`int(... or 1)`), and order
type defaulting to `LIMIT` when a price is present, else `MARKET`. -/
def normalizeOrders : Option (List RawSignal) → List NOrder
  | none => []
  | some sigs =>
    sigs.map (fun sg =>
      let q0 := sg.quantity.getD 1
      let quantity := if q0 = 0 then 1 else q0
      let t0 := upperStr (sg.orderType.getD "")
      let orderType :=
        if t0 = "" then (if sg.price.isSome then "LIMIT" else "MARKET") else t0
      ⟨sg.symbol, upperStr sg.side, quantity, orderType, sg.price⟩)

/-- Python `int()` truncation (toward zero) of an exact rational. -/
def pyInt (q : ℚ) : ℤ := Int.tdiv q.num q.den

/-- `SimpleBacktestEngine._match_order_v2`: match an order against the
latest prices; auto-size when the quantity is missing or non-positive
(30% of cash for a BUY, the full position for a SELL); apply slippage. -/
def matchOrderV2 (cfg : BTConfig) (st : DriverState) (order : NOrder)
    (barDate : ℕ) : Option MatchedTrade :=
  if order.symbol = "" then none
  else
    let side := upperStr order.side
    if !(side = "BUY" ∨ side = "SELL") then none
    else
      let closePrice := (alGet st.latestPrices order.symbol).getD 0
      if closePrice ≤ 0 then none
      else
        let quantity : ℤ :=
          if order.quantity ≤ 0 then
            if side = "BUY" then
              pyInt ((st.portfolio.cash * (3 / 10)) / closePrice)
            else
              ((alGet st.portfolio.positions order.symbol).map
                Position.quantity).getD 0
          else order.quantity
        if quantity ≤ 0 then none
        else
          let tradePrice :=
            if side = "BUY" then closePrice * (1 + cfg.slippage)
            else closePrice * (1 - cfg.slippage)
          some ⟨barDate, order.symbol, side, quantity, tradePrice,
            tradePrice * quantity⟩

/-- `SimpleBacktestEngine._calculate_commission`. -/
def calcCommission (cfg : BTConfig) (amount : ℚ) : ℚ :=
  amount * cfg.commissionRate

/-- One iteration of the order loop in `_process_bar`: match, check cash
for a BUY (skipping when `amount + commission > cash`), call
`portfolio.buy`/`portfolio.sell`, deduct commission, record the trade.
A failed `sell` is caught and the order skipped; a failed `buy` is an
uncaught exception (`none`), which the cash guard makes unreachable for
well-formed configurations. -/
def processOrder (cfg : BTConfig) (st : DriverState) (order : NOrder)
    (barDate : ℕ) : Option DriverState :=
  match matchOrderV2 cfg st order barDate with
  | none => some st
  | some tr =>
    let commission := calcCommission cfg tr.amount
    if tr.side = "BUY" then
      if st.portfolio.cash < tr.amount + commission then some st
      else
        match st.portfolio.buy tr.symbol tr.quantity tr.price barDate with
        | none => none
        | some pf =>
          some { st with
            portfolio := { pf with cash := pf.cash - commission },
            trades := st.trades ++
              [⟨tr.tdate, tr.symbol, tr.side, tr.quantity, tr.price,
                tr.amount, commission, 0⟩] }
    else
      match st.portfolio.sell tr.symbol tr.quantity tr.price barDate with
      | none => some st
      | some (realizedPnl, pf) =>
        some { st with
          portfolio := { pf with cash := pf.cash - commission },
          trades := st.trades ++
            [⟨tr.tdate, tr.symbol, tr.side, tr.quantity, tr.price,
              tr.amount, commission, realizedPnl - commission⟩] }

/-- The order loop of `_process_bar`. -/
def processOrders (cfg : BTConfig) (st : DriverState) (barDate : ℕ) :
    List NOrder → Option DriverState
  | [] => some st
  | o :: os =>
    match processOrder cfg st o barDate with
    | none => none
    | some st' => processOrders cfg st' barDate os

/-- `SimpleBacktestEngine._process_bar`: ask the strategy for signals,
normalize, run the order loop, settle the day, append the net value. -/
def processBar (cfg : BTConfig)
    (strategy : ℕ → List RawBar → Option (List RawSignal))
    (st : DriverState) (d : ℕ) (dayBars : List RawBar) : Option DriverState :=
  let orders := normalizeOrders (strategy d dayBars)
  match processOrders cfg st d orders with
  | none => none
  | some st1 =>
    let pf := st1.portfolio.settleDay d
    let value := Portfolio.getTotalValue pf st1.latestPrices
    some { st1 with portfolio := pf, netValues := st1.netValues ++ [(d, value)] }

/-- Ascending insertion of a date. -/
def insertDate (d : ℕ) : List ℕ → List ℕ
  | [] => [d]
  | x :: xs => if d ≤ x then d :: x :: xs else x :: insertDate d xs

/-- Ascending sort of the distinct trading dates (`sorted(daily_bars.keys())`). -/
def sortDates (l : List ℕ) : List ℕ :=
  l.foldr insertDate []

/-- The replay loop of `run`: per date, refresh the latest prices from the
day's bars, process the aggregated bar, and in T+1 settle the day again. -/
def runDays (cfg : BTConfig)
    (strategy : ℕ → List RawBar → Option (List RawSignal))
    (bars : List RawBar) (st : DriverState) : List ℕ → Option DriverState
  | [] => some st
  | d :: ds =>
    let dayBars := bars.filter (fun b => decide (b.bdate = d))
    let lp := dayBars.foldl
      (fun lp b => if b.symbol = "" then lp else alSet lp b.symbol b.close)
      st.latestPrices
    match processBar cfg strategy { st with latestPrices := lp } d dayBars with
    | none => none
    | some st2 =>
      let st3 :=
        if cfg.tradeMode = TradeMode.t1 then
          { st2 with portfolio := Portfolio.settleDay st2.portfolio d }
        else st2
      runDays cfg strategy bars st3 ds

/-- `SimpleBacktestEngine.run`: fresh portfolio, bars restricted to the
inclusive window and grouped by date, dates replayed in ascending order.
Returns the driver's final state (`_calculate_stats` reads the trade count
off `trades` and the curve off `netValues`). -/
def runBacktest (cfg : BTConfig)
    (strategy : ℕ → List RawBar → Option (List RawSignal))
    (data : List RawBar) (startDate endDate : ℕ) : Option DriverState :=
  match Portfolio.new cfg.initialCash cfg.tradeMode with
  | none => none
  | some pf0 =>
    let inRange := data.filter
      (fun b => decide (startDate ≤ b.bdate) && decide (b.bdate ≤ endDate))
    let dates := sortDates ((inRange.map RawBar.bdate).dedup)
    runDays cfg strategy inRange ⟨pf0, [], [], []⟩ dates

/-- `BacktestResult.trade_count` as computed by `_calculate_stats`. -/
def tradeCountOf (st : DriverState) : ℕ := st.trades.length

/-! ## Concrete scenario inputs used by witnesses and counterexamples -/

/-- Fresh T+1 portfolio with cash 1000 (input of the C1 witness). -/
def scC1p0 : Portfolio := ⟨1000, 1000, [], TradeMode.t1, []⟩

/-- Buy 10 on day 1, settle day 1, sell 4 on day 2 (C1 witness calls). -/
def scC1ops : List TradeOp :=
  [TradeOp.buy "A" 10 5 1, TradeOp.settle 1, TradeOp.sell "A" 4 6 2]

/-- The state the C1 witness run reaches. -/
def scC1p1 : Portfolio :=
  ⟨1000, 974, [("A", ⟨"A", 6, 5, 6, some 1⟩)], TradeMode.t1, []⟩

/-- Fresh T+1 portfolio with cash 1000 (input of the C2 witness). -/
def scC2p0 : Portfolio := ⟨1000, 1000, [], TradeMode.t1, []⟩

/-- Buy 10@5, settle, sell all 10@6 (C2 witness calls). -/
def scC2ops : List TradeOp :=
  [TradeOp.buy "A" 10 5 1, TradeOp.settle 1, TradeOp.sell "A" 10 6 2]

/-- The state the C2 witness run reaches (the position is closed). -/
def scC2p1 : Portfolio := ⟨1000, 1010, [], TradeMode.t1, []⟩

/-- C4 counterexample input: a stopped engine that still has one middleware
and one registered handler, with zeroed counters. -/
def scC4engine : EngineState :=
  ⟨fun _ => [⟨1, 0, fun _ => HandlerRes.done⟩],
   [⟨0, fun ev => MiddlewareRes.pass ev⟩], false, 0, 0, 2⟩

/-- The event dropped in the C4 counterexample. -/
def scC4event : Event := ⟨EventType.bar, 3⟩

/-- C5 witness engine: a raising middleware, a pass-through middleware and
three handlers on BAR of which the first and third raise. -/
def scC5engine : EngineState :=
  ⟨fun t => if t = EventType.bar then
      [⟨2, 5, fun _ => HandlerRes.raises⟩, ⟨3, 1, fun _ => HandlerRes.done⟩,
       ⟨4, 0, fun _ => HandlerRes.raises⟩]
    else [],
   [⟨0, fun _ => MiddlewareRes.raises⟩, ⟨1, fun ev => MiddlewareRes.pass ev⟩],
   true, 0, 0, 5⟩

/-- The event dispatched in the C5 witness. -/
def scC5event : Event := ⟨EventType.bar, 0⟩

/-- C6 witness handler behaviours (all benign). -/
def scC6behA : Event → HandlerRes := fun _ => HandlerRes.done

/-- C6 witness registration sequence: priorities 10, 1, 10 on BAR. -/
def scC6regs : List (EventType × (Event → HandlerRes) × ℤ) :=
  [(EventType.bar, scC6behA, 10), (EventType.bar, scC6behA, 1),
   (EventType.bar, scC6behA, 10)]

/-- C10 counterexample input: an engine whose only middleware raises, with
stale counters and no handlers at all. -/
def scC10engine : EngineState :=
  ⟨fun _ => [], [⟨0, fun _ => MiddlewareRes.raises⟩], false, 5, 7, 1⟩

/-- C10 witness engine: a pass-through middleware and one benign START
handler, with stale counters. -/
def scC10wEngine : EngineState :=
  ⟨fun t => if t = EventType.start then [⟨1, 0, fun _ => HandlerRes.done⟩]
    else [],
   [⟨0, fun ev => MiddlewareRes.pass ev⟩], false, 9, 9, 2⟩

/-- Register a list of `(type, handler, priority)` triples in order
(a sequence of `register` calls). -/
def EngineState.registerAll (st : EngineState) :
    List (EventType × (Event → HandlerRes) × ℤ) → EngineState
  | [] => st
  | (t, beh, priority) :: rest => (st.register t beh priority).registerAll rest

/-- C7 witness plugins: a three-plugin dependency chain
`strategy → risk → data`. -/
def psC7 : List PluginR :=
  [⟨"data", []⟩, ⟨"risk", ["data"]⟩, ⟨"strategy", ["risk"]⟩]

/-- The manager obtained by registering the chain `psC7`. -/
def mgrC7 : Manager :=
  ⟨[("data", ⟨"data", []⟩), ("risk", ⟨"risk", ["data"]⟩),
    ("strategy", ⟨"strategy", ["risk"]⟩)]⟩

/-- C3 scenario configuration: cash 100000, mode T+1, zero commission rate
and zero slippage. -/
def scC3cfg : BTConfig := ⟨100000, TradeMode.t1, 0, 0⟩

/-- C3 strategy: on every bar emit `BUY 10 CB001` then `SELL 10 CB001`. -/
def scC3strategy : ℕ → List RawBar → Option (List RawSignal) :=
  fun _ _ => some
    [⟨"CB001", "BUY", some 10, some "MARKET", none⟩,
     ⟨"CB001", "SELL", some 10, some "MARKET", none⟩]

/-- C3 data: a single bar for CB001 on date 1 with close 100. -/
def scC3data : List RawBar := [⟨1, "CB001", 100⟩]

/-- The driver state the C3 run ends in: one BUY trade recorded, position
quantity 10 with available 10 (released by the day-end settlement), cash
99000, flat net value 100000. -/
def scC3final : DriverState :=
  ⟨⟨100000, 99000, [("CB001", ⟨"CB001", 10, 100, 10, some 1⟩)],
    TradeMode.t1, []⟩,
   [("CB001", 100)],
   [⟨1, "CB001", "BUY", 10, 100, 1000, 0, 0⟩],
   [(1, 100000)]⟩

/-- C8 scenario configuration: T+1, zero commission rate and slippage. -/
def scC8cfg : BTConfig := ⟨1000, TradeMode.t1, 0, 0⟩

/-- C8 scenario driver state: cash 500, a CB001 position of quantity 10
with available 0 (still pending under T+1), CB001 quoted at 100. -/
def scC8st : DriverState :=
  ⟨⟨1000, 500, [("CB001", ⟨"CB001", 10, 100, 0, some 1⟩)], TradeMode.t1, []⟩,
   [("CB001", 100)], [], []⟩

/-- C8 sell order: SELL 10 CB001 (fails: available is 0). -/
def scC8sell : NOrder := ⟨"CB001", "SELL", 10, "MARKET", none⟩

/-- C8 buy order: BUY 10 CB001 (amount 1000 exceeds cash 500). -/
def scC8buy : NOrder := ⟨"CB001", "BUY", 10, "MARKET", none⟩

/-! ## Association-list lemmas -/

theorem alGet_nil {α β : Type} [DecidableEq α] (k : α) :
    alGet ([] : List (α × β)) k = none := rfl

theorem alGet_cons {α β : Type} [DecidableEq α] (e : α × β) (l : List (α × β))
    (k : α) :
    alGet (e :: l) k = if e.1 = k then some e.2 else alGet l k := by
  by_cases h : e.1 = k <;> simp [alGet, List.find?, h]

theorem alGet_eq_none_iff {α β : Type} [DecidableEq α] (l : List (α × β))
    (k : α) : alGet l k = none ↔ k ∉ l.map Prod.fst := by
  induction l with
  | nil => simp [alGet]
  | cons e l ih =>
    rw [alGet_cons]
    by_cases h : e.1 = k
    · simp [h]
    · simp only [h, if_false, ih, List.map_cons, List.mem_cons]
      constructor
      · intro hn hc
        rcases hc with hc | hc
        · exact h hc.symm
        · exact hn hc
      · intro hn hc
        exact hn (Or.inr hc)

theorem alGet_isSome_of_mem {α β : Type} [DecidableEq α] {l : List (α × β)}
    {k : α} (h : k ∈ l.map Prod.fst) : ∃ v, alGet l k = some v := by
  cases hv : alGet l k with
  | none => exact absurd ((alGet_eq_none_iff l k).mp hv) (by simp [h])
  | some v => exact ⟨v, rfl⟩

theorem any_eq_false_of_not_mem {α β : Type} [DecidableEq α]
    {l : List (α × β)} {k : α} (h : k ∉ l.map Prod.fst) :
    l.any (fun e => decide (e.1 = k)) = false := by
  simp only [List.any_eq_false]
  intro e he
  simp only [decide_eq_true_eq]
  intro hk
  exact h (by simpa [hk] using List.mem_map_of_mem Prod.fst he)

theorem any_eq_true_of_mem {α β : Type} [DecidableEq α]
    {l : List (α × β)} {k : α} (h : k ∈ l.map Prod.fst) :
    l.any (fun e => decide (e.1 = k)) = true := by
  rcases List.mem_map.mp h with ⟨e, he, hk⟩
  exact List.any_eq_true.mpr ⟨e, he, by simp [hk]⟩

theorem alSet_of_not_mem {α β : Type} [DecidableEq α] {l : List (α × β)}
    {k : α} (h : k ∉ l.map Prod.fst) (v : β) : alSet l k v = l ++ [(k, v)] := by
  simp [alSet, any_eq_false_of_not_mem h]

theorem alSet_of_mem {α β : Type} [DecidableEq α] {l : List (α × β)}
    {k : α} (h : k ∈ l.map Prod.fst) (v : β) :
    alSet l k v = l.map (fun e => if e.1 = k then (k, v) else e) := by
  simp [alSet, any_eq_true_of_mem h]

theorem alGet_mapRepl_self {α β : Type} [DecidableEq α] (l : List (α × β))
    {k : α} (hm : k ∈ l.map Prod.fst) (v : β) :
    alGet (l.map (fun e => if e.1 = k then (k, v) else e)) k = some v := by
  induction l with
  | nil => simp at hm
  | cons e l ih =>
    by_cases h : e.1 = k
    · simp [h, alGet_cons]
    · have hm' : k ∈ l.map Prod.fst := by
        simp only [List.map_cons, List.mem_cons] at hm
        rcases hm with hm | hm
        · exact absurd hm.symm h
        · exact hm
      simpa [h, alGet_cons] using ih hm'

theorem alGet_mapRepl_ne {α β : Type} [DecidableEq α] (l : List (α × β))
    {k k' : α} (hne : k' ≠ k) (v : β) :
    alGet (l.map (fun e => if e.1 = k then (k, v) else e)) k' = alGet l k' := by
  induction l with
  | nil => rfl
  | cons e l ih =>
    by_cases h : e.1 = k
    · have h1 : ¬ (k = k') := fun hk => hne hk.symm
      have h2 : ¬ e.1 = k' := by rw [h]; exact h1
      simp [alGet_cons, h, h1, h2, ih]
    · by_cases h' : e.1 = k'
      · simp [alGet_cons, h, h', hne]
      · simp [alGet_cons, h, h', ih]

theorem alGet_append_self {α β : Type} [DecidableEq α] {l : List (α × β)}
    {k : α} (hm : k ∉ l.map Prod.fst) (v : β) :
    alGet (l ++ [(k, v)]) k = some v := by
  induction l with
  | nil => simp [alGet_cons]
  | cons e l ih =>
    have h : ¬ e.1 = k := by
      intro hk
      exact hm (by simp [hk.symm])
    have hm' : k ∉ l.map Prod.fst := fun hx => hm (by simp [hx])
    simpa [alGet_cons, h] using ih hm'

theorem alGet_append_ne {α β : Type} [DecidableEq α] (l : List (α × β))
    {k k' : α} (hne : k' ≠ k) (v : β) :
    alGet (l ++ [(k, v)]) k' = alGet l k' := by
  induction l with
  | nil =>
    have : ¬ (k = k') := fun hk => hne hk.symm
    simp [alGet_cons, alGet_nil, this]
  | cons e l ih =>
    by_cases h' : e.1 = k'
    · simp [alGet_cons, h']
    · simpa [alGet_cons, h'] using ih

theorem alGet_alSet_self {α β : Type} [DecidableEq α] (l : List (α × β))
    (k : α) (v : β) : alGet (alSet l k v) k = some v := by
  by_cases hm : k ∈ l.map Prod.fst
  · rw [alSet_of_mem hm]
    exact alGet_mapRepl_self l hm v
  · rw [alSet_of_not_mem hm]
    exact alGet_append_self hm v

theorem alGet_alSet_ne {α β : Type} [DecidableEq α] (l : List (α × β))
    {k k' : α} (hne : k' ≠ k) (v : β) : alGet (alSet l k v) k' = alGet l k' := by
  by_cases hm : k ∈ l.map Prod.fst
  · rw [alSet_of_mem hm]
    exact alGet_mapRepl_ne l hne v
  · rw [alSet_of_not_mem hm]
    exact alGet_append_ne l hne v

theorem alGet_alDel_self {α β : Type} [DecidableEq α] (l : List (α × β))
    (k : α) : alGet (alDel l k) k = none := by
  rw [alGet_eq_none_iff]
  intro hm
  rcases List.mem_map.mp hm with ⟨e, he, hk⟩
  have := List.mem_filter.mp he
  simp [hk] at this

theorem alGet_alDel_ne {α β : Type} [DecidableEq α] (l : List (α × β))
    {k k' : α} (hne : k' ≠ k) : alGet (alDel l k) k' = alGet l k' := by
  induction l with
  | nil => rfl
  | cons e l ih =>
    by_cases h : e.1 = k
    · have h2 : ¬ e.1 = k' := by rw [h]; exact fun hk => hne hk.symm
      have hdel : alDel (e :: l) k = alDel l k := by
        simp [alDel, List.filter_cons, h]
      rw [hdel, alGet_cons, if_neg h2, ih]
    · have hdel : alDel (e :: l) k = e :: alDel l k := by
        simp [alDel, List.filter_cons, h]
      rw [hdel, alGet_cons, alGet_cons]
      by_cases h' : e.1 = k' <;> simp [h', ih]

theorem alDel_of_not_mem {α β : Type} [DecidableEq α] {l : List (α × β)}
    {k : α} (h : k ∉ l.map Prod.fst) : alDel l k = l := by
  apply List.filter_eq_self.mpr
  intro e he
  have : ¬ e.1 = k := fun hk =>
    h (by simpa [hk] using List.mem_map_of_mem Prod.fst he)
  simp [this]

theorem keys_mapRepl {α β : Type} [DecidableEq α] (l : List (α × β))
    (k : α) (v : β) :
    (l.map (fun e => if e.1 = k then (k, v) else e)).map Prod.fst =
      l.map Prod.fst := by
  rw [List.map_map]
  apply List.map_congr_left
  intro e _
  by_cases h : e.1 = k <;> simp [h]

theorem alNodup_alSet {α β : Type} [DecidableEq α] {l : List (α × β)}
    (hl : alNodup l) (k : α) (v : β) : alNodup (alSet l k v) := by
  by_cases hm : k ∈ l.map Prod.fst
  · rw [alSet_of_mem hm]
    unfold alNodup
    rw [keys_mapRepl]
    exact hl
  · rw [alSet_of_not_mem hm]
    unfold alNodup at hl ⊢
    rw [List.map_append]
    refine List.Nodup.append hl (by simp) ?_
    intro x hx
    simp only [List.map_cons, List.map_nil, List.mem_singleton]
    rintro rfl
    exact hm hx

theorem alNodup_alDel {α β : Type} [DecidableEq α] {l : List (α × β)}
    (hl : alNodup l) (k : α) : alNodup (alDel l k) := by
  unfold alNodup at hl ⊢
  exact List.Nodup.sublist (List.Sublist.map Prod.fst (List.filter_sublist l)) hl

theorem mem_alSet {α β : Type} [DecidableEq α] {l : List (α × β)}
    {k : α} {v : β} {x : α × β} (hx : x ∈ alSet l k v) :
    x = (k, v) ∨ x ∈ l := by
  by_cases hm : k ∈ l.map Prod.fst
  · rw [alSet_of_mem hm] at hx
    rcases List.mem_map.mp hx with ⟨e, he, hex⟩
    by_cases h : e.1 = k
    · left; simp [h] at hex; exact hex.symm
    · right; simp [h] at hex; exact hex ▸ he
  · rw [alSet_of_not_mem hm] at hx
    rcases List.mem_append.mp hx with h | h
    · exact Or.inr h
    · exact Or.inl (by simpa using h)

theorem mem_alDel {α β : Type} [DecidableEq α] {l : List (α × β)}
    {k : α} {x : α × β} (hx : x ∈ alDel l k) : x ∈ l :=
  (List.mem_filter.mp hx).1

theorem alNodup_cons {α β : Type} {e : α × β} {l : List (α × β)} :
    alNodup (e :: l) ↔ e.1 ∉ l.map Prod.fst ∧ alNodup l := by
  unfold alNodup
  simp [List.nodup_cons]

theorem mapRepl_of_not_mem {α β : Type} [DecidableEq α] {l : List (α × β)}
    {k : α} (hm : k ∉ l.map Prod.fst) (v : β) :
    l.map (fun e => if e.1 = k then (k, v) else e) = l := by
  induction l with
  | nil => rfl
  | cons e l ih =>
    have h : ¬ e.1 = k := fun hk => hm (by simp [hk.symm])
    have hm' : k ∉ l.map Prod.fst := fun hx => hm (by simp [hx])
    simp [h, ih hm']

theorem entry_eq_of_alGet {α β : Type} [DecidableEq α] {e : α × β}
    {k : α} {v₀ : β} (h1 : e.1 = k) (h2 : e.2 = v₀) : e = (k, v₀) := by
  cases e
  simp_all

theorem sum_alSet {M : Type} [AddCommGroup M] {α β : Type} [DecidableEq α]
    (f : α × β → M) {l : List (α × β)} {k : α} {v₀ : β}
    (hl : alNodup l) (hk : alGet l k = some v₀) (v : β) :
    ((alSet l k v).map f).sum = (l.map f).sum - f (k, v₀) + f (k, v) := by
  have hm : k ∈ l.map Prod.fst := by
    by_contra hm
    rw [(alGet_eq_none_iff l k).mpr hm] at hk
    cases hk
  rw [alSet_of_mem hm]
  induction l with
  | nil => simp at hm
  | cons e l ih =>
    rcases alNodup_cons.mp hl with ⟨he, hl'⟩
    by_cases h : e.1 = k
    · have hv : e.2 = v₀ := by
        rw [alGet_cons, if_pos h] at hk
        exact Option.some.inj hk
      have he' : k ∉ l.map Prod.fst := h ▸ he
      have heq : e = (k, v₀) := entry_eq_of_alGet h hv
      simp only [List.map_cons, List.sum_cons, if_pos h,
        mapRepl_of_not_mem he' v, heq]
      abel_nf
    · have hk' : alGet l k = some v₀ := by
        rwa [alGet_cons, if_neg h] at hk
      have hm' : k ∈ l.map Prod.fst := by
        by_contra hm'
        rw [(alGet_eq_none_iff l k).mpr hm'] at hk'
        cases hk'
      simp only [List.map_cons, List.sum_cons, if_neg h, ih hl' hk' hm']
      abel_nf

theorem sum_alSet_absent {M : Type} [AddCommGroup M] {α β : Type}
    [DecidableEq α] (f : α × β → M) {l : List (α × β)} {k : α}
    (hk : alGet l k = none) (v : β) :
    ((alSet l k v).map f).sum = (l.map f).sum + f (k, v) := by
  rw [alSet_of_not_mem ((alGet_eq_none_iff l k).mp hk)]
  simp

theorem sum_alDel {M : Type} [AddCommGroup M] {α β : Type} [DecidableEq α]
    (f : α × β → M) {l : List (α × β)} {k : α} {v₀ : β}
    (hl : alNodup l) (hk : alGet l k = some v₀) :
    ((alDel l k).map f).sum = (l.map f).sum - f (k, v₀) := by
  induction l with
  | nil => cases hk
  | cons e l ih =>
    rcases alNodup_cons.mp hl with ⟨he, hl'⟩
    by_cases h : e.1 = k
    · have hv : e.2 = v₀ := by
        rw [alGet_cons, if_pos h] at hk
        exact Option.some.inj hk
      have heq : e = (k, v₀) := entry_eq_of_alGet h hv
      have hdel : alDel (e :: l) k = alDel l k := by
        simp [alDel, List.filter_cons, h]
      have he' : k ∉ l.map Prod.fst := h ▸ he
      rw [hdel, alDel_of_not_mem he', heq]
      simp
    · have hk' : alGet l k = some v₀ := by
        rwa [alGet_cons, if_neg h] at hk
      have hdel : alDel (e :: l) k = e :: alDel l k := by
        simp [alDel, List.filter_cons, h]
      rw [hdel]
      simp only [List.map_cons, List.sum_cons, ih hl' hk']
      abel_nf

theorem alGet_mem {α β : Type} [DecidableEq α] {l : List (α × β)} {k : α}
    {v : β} (h : alGet l k = some v) : (k, v) ∈ l := by
  induction l with
  | nil => cases h
  | cons e l ih =>
    rw [alGet_cons] at h
    by_cases he : e.1 = k
    · rw [if_pos he] at h
      have : e = (k, v) := entry_eq_of_alGet he (Option.some.inj h)
      rw [← this]
      exact List.mem_cons_self _ _
    · rw [if_neg he] at h
      exact List.mem_cons_of_mem e (ih h)

theorem alGet_of_mem_nodup {α β : Type} [DecidableEq α] {l : List (α × β)}
    {e : α × β} (hl : alNodup l) (he : e ∈ l) : alGet l e.1 = some e.2 := by
  induction l with
  | nil => cases he
  | cons x l ih =>
    rcases alNodup_cons.mp hl with ⟨hx, hl'⟩
    rcases List.mem_cons.mp he with rfl | he'
    · simp [alGet_cons]
    · have hne : ¬ x.1 = e.1 := by
        intro hk
        exact hx (hk ▸ List.mem_map_of_mem Prod.fst he')
      rw [alGet_cons, if_neg hne]
      exact ih hl' he'

/-! ## Portfolio invariant lemmas -/

/-- Entrywise nonnegativity of the pending buckets. -/
def pendNonneg (pend : List (ℕ × List (String × ℤ))) : Prop :=
  ∀ e ∈ pend, ∀ b ∈ e.2, 0 ≤ b.2

theorem bGetPend_nonneg {pend : List (ℕ × List (String × ℤ))}
    (h : pendNonneg pend) (d : ℕ) (s : String) : 0 ≤ bGetPend pend d s := by
  unfold bGetPend
  cases hb : alGet pend d with
  | none => simp [hb, alGet_nil]
  | some bucket =>
    cases hv : alGet bucket s with
    | none => simp [hb, hv]
    | some v =>
      have hm := alGet_mem hv
      simpa [hb, hv] using h (d, bucket) (alGet_mem hb) (s, v) hm

theorem pendSumFor_term_nonneg {pend : List (ℕ × List (String × ℤ))}
    (h : pendNonneg pend) (s : String) :
    ∀ x ∈ pend.map (fun e => ((alGet e.2 s).getD 0)), 0 ≤ x := by
  intro x hx
  rcases List.mem_map.mp hx with ⟨e, he, hex⟩
  cases hv : alGet e.2 s with
  | none => simp [hv] at hex; omega
  | some v =>
    have := h e he (s, v) (alGet_mem hv)
    simp only [hv, Option.getD_some] at hex
    omega

theorem pendSumFor_nonneg {pend : List (ℕ × List (String × ℤ))}
    (h : pendNonneg pend) (s : String) : 0 ≤ pendSumFor pend s := by
  unfold pendSumFor
  exact List.sum_nonneg (pendSumFor_term_nonneg h s)

theorem bGetPend_le_pendSumFor {pend : List (ℕ × List (String × ℤ))}
    (_hn : alNodup pend) (h : pendNonneg pend) (d : ℕ) (s : String) :
    bGetPend pend d s ≤ pendSumFor pend s := by
  unfold bGetPend pendSumFor
  cases hb : alGet pend d with
  | none =>
    simp only [Option.getD_none, alGet_nil, Option.getD_none]
    exact List.sum_nonneg (pendSumFor_term_nonneg h s)
  | some bucket =>
    have hmem : (d, bucket) ∈ pend := alGet_mem hb
    have : ((alGet bucket s).getD 0) ∈
        pend.map (fun e => ((alGet e.2 s).getD 0)) := by
      exact List.mem_map.mpr ⟨(d, bucket), hmem, rfl⟩
    simpa using List.single_le_sum (pendSumFor_term_nonneg h s) _ this

theorem pendSumFor_pendAdd_self {pend : List (ℕ × List (String × ℤ))}
    (hn : alNodup pend) (d : ℕ) (s : String) (q : ℤ) :
    pendSumFor (pendAdd pend d s q) s = pendSumFor pend s + q := by
  unfold pendAdd pendSumFor
  cases hb : alGet pend d with
  | none =>
    rw [sum_alSet_absent (fun e => ((alGet e.2 s).getD 0)) hb]
    simp [hb, alGet_alSet_self, alGet_nil]
  | some bucket =>
    rw [sum_alSet (fun e => ((alGet e.2 s).getD 0)) hn hb]
    simp only [hb, Option.getD_some, alGet_alSet_self, Option.getD_some]
    ring

theorem pendSumFor_pendAdd_ne {pend : List (ℕ × List (String × ℤ))}
    (hn : alNodup pend) (d : ℕ) {s s' : String} (hne : s' ≠ s) (q : ℤ) :
    pendSumFor (pendAdd pend d s q) s' = pendSumFor pend s' := by
  unfold pendAdd pendSumFor
  cases hb : alGet pend d with
  | none =>
    rw [sum_alSet_absent (fun e => ((alGet e.2 s').getD 0)) hb]
    simp [hb, alGet_alSet_ne _ hne, alGet_nil]
  | some bucket =>
    rw [sum_alSet (fun e => ((alGet e.2 s').getD 0)) hn hb]
    simp only [hb, Option.getD_some, alGet_alSet_ne _ hne]
    ring

theorem pendAdd_nodup {pend : List (ℕ × List (String × ℤ))}
    (hn : alNodup pend) (hb : ∀ e ∈ pend, alNodup e.2) (d : ℕ) (s : String)
    (q : ℤ) :
    alNodup (pendAdd pend d s q) ∧ ∀ e ∈ pendAdd pend d s q, alNodup e.2 := by
  unfold pendAdd
  refine ⟨alNodup_alSet hn _ _, ?_⟩
  intro e he
  rcases mem_alSet he with rfl | he'
  · cases hbk : alGet pend d with
    | none => simpa [hbk] using alNodup_alSet (by simp [alNodup]) s _
    | some bucket =>
      simpa [hbk] using alNodup_alSet (hb (d, bucket) (alGet_mem hbk)) s _
  · exact hb e he'

theorem pendAdd_nonneg {pend : List (ℕ × List (String × ℤ))}
    (h : pendNonneg pend) (d : ℕ) (s : String)
    {q : ℤ} (hq : 0 ≤ q) : pendNonneg (pendAdd pend d s q) := by
  have hnn : 0 ≤ ((alGet ((alGet pend d).getD []) s).getD 0) := by
    cases hbk : alGet pend d with
    | none => simp [alGet_nil]
    | some bucket =>
      cases hv : alGet bucket s with
      | none => simp [hv]
      | some v =>
        have hmem := h (d, bucket) (alGet_mem hbk) (s, v) (alGet_mem hv)
        simpa [hv] using hmem
  unfold pendAdd
  intro e he b hbmem
  rcases mem_alSet he with rfl | he'
  · rcases mem_alSet hbmem with rfl | hb'
    · exact add_nonneg hnn hq
    · cases hbk : alGet pend d with
      | none =>
        rw [hbk] at hb'
        simp at hb'
      | some bucket =>
        rw [hbk] at hb'
        simp only [Option.getD_some] at hb'
        exact h (d, bucket) (alGet_mem hbk) b hb'
  · exact h e he' b hbmem

theorem position_avail_add_zero (pos : Position) :
    ({ pos with available := pos.available + 0 } : Position) = pos := by
  cases pos
  simp

theorem settleRelease_nodup {ps : List (String × Position)}
    (hp : alNodup ps) (b : List (String × ℤ)) :
    alNodup (settleRelease ps b) := by
  induction b generalizing ps with
  | nil => simpa [settleRelease] using hp
  | cons e rest ih =>
    cases hg : alGet ps e.1 with
    | none => simpa [settleRelease, hg] using ih hp
    | some pos =>
      have h2 := alNodup_alSet hp e.1 ({ pos with available := pos.available + e.2 })
      simpa [settleRelease, hg] using ih h2

theorem settleRelease_alGet {ps : List (String × Position)}
    (hp : alNodup ps) {b : List (String × ℤ)} (hb : alNodup b) (s : String) :
    alGet (settleRelease ps b) s =
      (alGet ps s).map
        (fun pos => { pos with available := pos.available + (alGet b s).getD 0 }) := by
  induction b generalizing ps with
  | nil =>
    cases hg : alGet ps s <;>
      simp [settleRelease, hg, alGet_nil, position_avail_add_zero]
  | cons e rest ih =>
    rcases alNodup_cons.mp hb with ⟨hke, hrest⟩
    by_cases hs : e.1 = s
    · have hrs : alGet rest s = none := by
        rw [alGet_eq_none_iff]
        exact hs ▸ hke
      cases hg : alGet ps e.1 with
      | none =>
        have hgs : alGet ps s = none := hs ▸ hg
        have hih := ih hp hrest
        simp only [settleRelease, List.foldl_cons, hg] at hih ⊢
        rw [hih, hgs]
        simp
      | some pos =>
        have hps' := alNodup_alSet hp e.1 ({ pos with available := pos.available + e.2 })
        have hih := ih hps' hrest
        simp only [settleRelease, List.foldl_cons, hg] at hih ⊢
        rw [hih]
        have hget : alGet (alSet ps e.1 { pos with available := pos.available + e.2 }) s
            = some { pos with available := pos.available + e.2 } := by
          rw [← hs]
          exact alGet_alSet_self _ _ _
        rw [hget, hrs, alGet_cons, if_pos hs]
        have hgs : alGet ps s = some pos := hs ▸ hg
        rw [hgs]
        simp
    · have hbs : alGet (e :: rest) s = alGet rest s := by
        rw [alGet_cons, if_neg hs]
      cases hg : alGet ps e.1 with
      | none =>
        have hih := ih hp hrest
        simp only [settleRelease, List.foldl_cons, hg] at hih ⊢
        rw [hih, hbs]
      | some pos =>
        have hps' := alNodup_alSet hp e.1 ({ pos with available := pos.available + e.2 })
        have hih := ih hps' hrest
        simp only [settleRelease, List.foldl_cons, hg] at hih ⊢
        rw [hih, hbs, alGet_alSet_ne _ (fun h => hs h.symm)]

theorem settleRelease_holdings {ps : List (String × Position)}
    (hp : alNodup ps) (b : List (String × ℤ)) :
    ((settleRelease ps b).map
      (fun e => (e.2.quantity : ℚ) * e.2.cost)).sum =
      (ps.map (fun e => (e.2.quantity : ℚ) * e.2.cost)).sum := by
  induction b generalizing ps with
  | nil => simp [settleRelease]
  | cons e rest ih =>
    cases hg : alGet ps e.1 with
    | none =>
      have hih := ih hp
      simp only [settleRelease, List.foldl_cons, hg] at hih ⊢
      rw [hih]
    | some pos =>
      have hps' := alNodup_alSet hp e.1 ({ pos with available := pos.available + e.2 })
      have hih := ih hps'
      simp only [settleRelease, List.foldl_cons, hg] at hih ⊢
      rw [hih, sum_alSet (fun e => (e.2.quantity : ℚ) * e.2.cost) hp hg]
      simp

theorem validate_spec {s : String} {q : ℤ} {pr : ℚ} :
    validateTradeInput s q pr = true ↔ (¬ s = "" ∧ 0 < q ∧ 0 < pr) := by
  simp [validateTradeInput, and_assoc]

theorem new_inv {c : ℚ} {mode : TradeMode} {p : Portfolio}
    (h : Portfolio.new c mode = some p) :
    p.Inv ∧ p.initialCash = c ∧ p.tradeMode = mode ∧ p.cash = c ∧
      p.positions = [] ∧ p.pendingT1 = [] := by
  unfold Portfolio.new at h
  by_cases hc : c < 0
  · simp [hc] at h
  · simp only [hc, if_false] at h
    obtain rfl := Option.some.inj h
    refine ⟨⟨?_, ?_, ?_, ?_, ?_, ?_⟩, rfl, rfl, rfl, rfl, rfl⟩
    · simp [alNodup]
    · simp [alNodup]
    · intro e he; cases he
    · intro e he; cases he
    · intro _
      refine ⟨?_, rfl⟩
      intro e he
      cases he
    · intro _
      refine ⟨?_, fun s => ?_⟩
      · intro e he
        cases he
      · simp [pendSumFor, posQty, posAvail, alGet_nil]

theorem buy_inv {p : Portfolio} (hp : p.Inv) {s : String} {q : ℤ} {pr : ℚ}
    {d : ℕ} {p' : Portfolio} (h : p.buy s q pr d = some p') :
    p'.Inv ∧ p'.initialCash = p.initialCash ∧ p'.tradeMode = p.tradeMode ∧
    p'.cash + holdingsValue p' = p.cash + holdingsValue p := by
  obtain ⟨hN, hNp, hBk, hwf, ht0, ht1⟩ := hp
  rw [Portfolio.buy] at h
  by_cases hv : validateTradeInput s q pr = true
  swap
  · simp only [Bool.not_eq_true] at hv
    simp [hv] at h
  obtain ⟨hsym, hq, hpr⟩ := validate_spec.mp hv
  by_cases hcash : p.cash < q * pr
  · simp [hv, hcash] at h
  simp only [hv, Bool.not_true, Bool.false_eq_true, if_false, hcash,
    if_true] at h
  cases hmode : p.tradeMode with
  | t0 =>
    obtain ⟨hA, hPend⟩ := ht0 hmode
    cases hpos : alGet p.positions s with
    | none =>
      simp only [hpos, hmode, reduceCtorEq, if_true, if_false,
        reduceIte] at h
      obtain rfl := Option.some.inj h
      refine ⟨⟨alNodup_alSet hN _ _, hNp, hBk, ?_, ?_, ?_⟩, rfl, rfl, ?_⟩
      · intro e he
        rcases mem_alSet he with rfl | he'
        · exact ⟨hq, by dsimp only; omega, by dsimp only; omega⟩
        · exact hwf e he'
      · intro _
        refine ⟨?_, hPend⟩
        intro e he
        rcases mem_alSet he with rfl | he'
        · rfl
        · exact hA e he'
      · intro hm
        simp at hm
      · show p.cash - ↑q * pr + holdingsValue _ = _
        unfold holdingsValue
        dsimp only
        rw [sum_alSet_absent (fun e => (e.2.quantity : ℚ) * e.2.cost) hpos]
        dsimp only
        ring
    | some pos =>
      have hposwf : pos.wf := hwf (s, pos) (alGet_mem hpos)
      obtain ⟨hq0, ha0, haq⟩ := hposwf
      have hAe : pos.available = pos.quantity := hA (s, pos) (alGet_mem hpos)
      simp only [hpos, hmode, reduceCtorEq, if_true, if_false,
        reduceIte] at h
      obtain rfl := Option.some.inj h
      have htotalQpos : (0 : ℤ) < pos.quantity + q := by omega
      refine ⟨⟨alNodup_alSet hN _ _, hNp, hBk, ?_, ?_, ?_⟩, rfl, rfl, ?_⟩
      · intro e he
        rcases mem_alSet he with rfl | he'
        · exact ⟨htotalQpos, by dsimp only; omega, by dsimp only; omega⟩
        · exact hwf e he'
      · intro _
        refine ⟨?_, hPend⟩
        intro e he
        rcases mem_alSet he with rfl | he'
        · dsimp only
          omega
        · exact hA e he'
      · intro hm
        simp at hm
      · show p.cash - ↑q * pr + holdingsValue _ = _
        unfold holdingsValue
        dsimp only
        rw [sum_alSet (fun e => (e.2.quantity : ℚ) * e.2.cost) hN hpos]
        have hcast : ((pos.quantity : ℚ) + (q : ℚ)) ≠ 0 := by
          rw [show ((pos.quantity : ℚ) + (q : ℚ)) = ((pos.quantity + q : ℤ) : ℚ)
            by push_cast; ring]
          rw [Int.cast_ne_zero]
          omega
        dsimp only
        push_cast
        rw [mul_comm ((pos.quantity : ℚ) + (q : ℚ)), div_mul_cancel₀ _ hcast]
        ring
  | t1 =>
    obtain ⟨hnn, hslack⟩ := ht1 hmode
    cases hpos : alGet p.positions s with
    | none =>
      simp only [hpos, hmode, reduceCtorEq, if_true, if_false,
        reduceIte] at h
      obtain rfl := Option.some.inj h
      refine ⟨⟨alNodup_alSet hN _ _, (pendAdd_nodup hNp hBk d s q).1,
        (pendAdd_nodup hNp hBk d s q).2, ?_, ?_, ?_⟩, rfl, rfl, ?_⟩
      · intro e he
        rcases mem_alSet he with rfl | he'
        · exact ⟨hq, by dsimp only; omega, by dsimp only; omega⟩
        · exact hwf e he'
      · intro hm
        simp at hm
      · intro _
        refine ⟨pendAdd_nonneg hnn d s (le_of_lt hq), ?_⟩
        intro s'
        simp only [posQty, posAvail]
        try dsimp only
        by_cases hs' : s' = s
        · subst hs'
          have hsl := hslack s'
          simp only [posQty, posAvail, hpos] at hsl
          rw [pendSumFor_pendAdd_self hNp, alGet_alSet_self]
          simp only [Option.map_some', Option.getD_some] at hsl ⊢
          simp only [Option.map_none', Option.getD_none] at hsl
          try dsimp only
          omega
        · have hsl := hslack s'
          simp only [posQty, posAvail] at hsl
          rw [pendSumFor_pendAdd_ne hNp d hs', alGet_alSet_ne _ hs']
          exact hsl
      · show p.cash - ↑q * pr + holdingsValue _ = _
        unfold holdingsValue
        dsimp only
        rw [sum_alSet_absent (fun e => (e.2.quantity : ℚ) * e.2.cost) hpos]
        dsimp only
        ring
    | some pos =>
      have hposwf : pos.wf := hwf (s, pos) (alGet_mem hpos)
      obtain ⟨hq0, ha0, haq⟩ := hposwf
      simp only [hpos, hmode, reduceCtorEq, if_true, if_false,
        reduceIte] at h
      obtain rfl := Option.some.inj h
      have htotalQpos : (0 : ℤ) < pos.quantity + q := by omega
      refine ⟨⟨alNodup_alSet hN _ _, (pendAdd_nodup hNp hBk d s q).1,
        (pendAdd_nodup hNp hBk d s q).2, ?_, ?_, ?_⟩, rfl, rfl, ?_⟩
      · intro e he
        rcases mem_alSet he with rfl | he'
        · exact ⟨htotalQpos, by dsimp only; omega, by dsimp only; omega⟩
        · exact hwf e he'
      · intro hm
        simp at hm
      · intro _
        refine ⟨pendAdd_nonneg hnn d s (le_of_lt hq), ?_⟩
        intro s'
        simp only [posQty, posAvail]
        try dsimp only
        by_cases hs' : s' = s
        · subst hs'
          have hsl := hslack s'
          simp only [posQty, posAvail, hpos] at hsl
          rw [pendSumFor_pendAdd_self hNp, alGet_alSet_self]
          simp only [Option.map_some', Option.getD_some] at hsl ⊢
          try dsimp only
          omega
        · have hsl := hslack s'
          simp only [posQty, posAvail] at hsl
          rw [pendSumFor_pendAdd_ne hNp d hs', alGet_alSet_ne _ hs']
          exact hsl
      · show p.cash - ↑q * pr + holdingsValue _ = _
        unfold holdingsValue
        dsimp only
        rw [sum_alSet (fun e => (e.2.quantity : ℚ) * e.2.cost) hN hpos]
        have hcast : ((pos.quantity : ℚ) + (q : ℚ)) ≠ 0 := by
          rw [show ((pos.quantity : ℚ) + (q : ℚ)) = ((pos.quantity + q : ℤ) : ℚ)
            by push_cast; ring]
          rw [Int.cast_ne_zero]
          omega
        dsimp only
        push_cast
        rw [mul_comm ((pos.quantity : ℚ) + (q : ℚ)), div_mul_cancel₀ _ hcast]
        ring

theorem sell_inv {p : Portfolio} (hp : p.Inv) {s : String} {q : ℤ} {pr : ℚ}
    {d : ℕ} {r : ℚ} {p' : Portfolio} (h : p.sell s q pr d = some (r, p')) :
    p'.Inv ∧ p'.initialCash = p.initialCash ∧ p'.tradeMode = p.tradeMode ∧
    p'.cash + holdingsValue p' = p.cash + holdingsValue p + r := by
  obtain ⟨hN, hNp, hBk, hwf, ht0, ht1⟩ := hp
  rw [Portfolio.sell] at h
  by_cases hv : validateTradeInput s q pr = true
  swap
  · simp only [Bool.not_eq_true] at hv
    simp [hv] at h
  obtain ⟨hsym, hq, hpr⟩ := validate_spec.mp hv
  simp only [hv, Bool.not_true, Bool.false_eq_true, if_false] at h
  cases hpos : alGet p.positions s with
  | none => simp [hpos] at h
  | some pos =>
    have hposwf : pos.wf := hwf (s, pos) (alGet_mem hpos)
    obtain ⟨hq0, ha0, haq⟩ := hposwf
    simp only [hpos] at h
    by_cases hqq : pos.quantity < q
    · simp [hqq] at h
    simp only [hqq, if_false, if_true, reduceIte] at h
    cases hmode : p.tradeMode with
    | t0 =>
      obtain ⟨hA, hPend⟩ := ht0 hmode
      have hAe : pos.available = pos.quantity := hA (s, pos) (alGet_mem hpos)
      rw [Portfolio.getAvailableQuantity] at h
      simp only [hpos, hmode] at h
      by_cases hav : pos.quantity < q
      · simp [hav] at h
      simp only [hav, if_false, reduceIte] at h
      by_cases hzero : pos.quantity - q = 0
      · simp only [hzero, if_true, reduceIte] at h
        simp only [Option.some.injEq, Prod.mk.injEq] at h
        obtain ⟨rfl, rfl⟩ := h
        refine ⟨⟨alNodup_alDel hN s, hNp, hBk, ?_, ?_, ?_⟩, rfl, rfl, ?_⟩
        · intro e he
          exact hwf e (mem_alDel he)
        · intro _
          exact ⟨fun e he => hA e (mem_alDel he), hPend⟩
        · intro hm
          simp at hm
        · show p.cash + ↑q * pr + holdingsValue _ = _
          unfold holdingsValue
          dsimp only
          rw [sum_alDel (fun e => (e.2.quantity : ℚ) * e.2.cost) hN hpos]
          have hcast : (pos.quantity : ℚ) = (q : ℚ) := by
            have : pos.quantity = q := by omega
            rw [this]
          dsimp only
          rw [hcast]
          ring
      · simp only [hzero, if_false, hmode, if_true, reduceIte] at h
        simp only [Option.some.injEq, Prod.mk.injEq] at h
        obtain ⟨rfl, rfl⟩ := h
        refine ⟨⟨alNodup_alSet hN _ _, hNp, hBk, ?_, ?_, ?_⟩, rfl, rfl, ?_⟩
        · intro e he
          rcases mem_alSet he with rfl | he'
          · exact ⟨by dsimp only; omega, by dsimp only; omega,
              by dsimp only; omega⟩
          · exact hwf e he'
        · intro _
          refine ⟨?_, hPend⟩
          intro e he
          rcases mem_alSet he with rfl | he'
          · rfl
          · exact hA e he'
        · intro hm
          simp at hm
        · show p.cash + ↑q * pr + holdingsValue _ = _
          unfold holdingsValue
          dsimp only
          rw [sum_alSet (fun e => (e.2.quantity : ℚ) * e.2.cost) hN hpos]
          dsimp only
          push_cast
          ring
    | t1 =>
      obtain ⟨hnn, hslack⟩ := ht1 hmode
      rw [Portfolio.getAvailableQuantity] at h
      simp only [hpos, hmode] at h
      by_cases hav : pos.available < q
      · simp [hav] at h
      simp only [hav, if_false, reduceIte] at h
      by_cases hzero : pos.quantity - q = 0
      · simp only [hzero, if_true, reduceIte] at h
        simp only [Option.some.injEq, Prod.mk.injEq] at h
        obtain ⟨rfl, rfl⟩ := h
        refine ⟨⟨alNodup_alDel hN s, hNp, hBk, ?_, ?_, ?_⟩, rfl, rfl, ?_⟩
        · intro e he
          exact hwf e (mem_alDel he)
        · intro hm
          simp at hm
        · intro _
          refine ⟨hnn, ?_⟩
          intro s'
          simp only [posQty, posAvail]
          try dsimp only
          by_cases hs' : s' = s
          · subst hs'
            have hsl := hslack s'
            simp only [posQty, posAvail, hpos] at hsl
            rw [alGet_alDel_self]
            simp only [Option.map_some', Option.getD_some] at hsl
            simp only [Option.map_none', Option.getD_none]
            omega
          · have hsl := hslack s'
            simp only [posQty, posAvail] at hsl
            rw [alGet_alDel_ne _ hs']
            exact hsl
        · show p.cash + ↑q * pr + holdingsValue _ = _
          unfold holdingsValue
          dsimp only
          rw [sum_alDel (fun e => (e.2.quantity : ℚ) * e.2.cost) hN hpos]
          have hcast : (pos.quantity : ℚ) = (q : ℚ) := by
            have : pos.quantity = q := by omega
            rw [this]
          dsimp only
          rw [hcast]
          ring
      · simp only [hzero, if_false, hmode, reduceCtorEq, reduceIte] at h
        simp only [Option.some.injEq, Prod.mk.injEq] at h
        obtain ⟨rfl, rfl⟩ := h
        refine ⟨⟨alNodup_alSet hN _ _, hNp, hBk, ?_, ?_, ?_⟩, rfl, rfl, ?_⟩
        · intro e he
          rcases mem_alSet he with rfl | he'
          · exact ⟨by dsimp only; omega, by dsimp only; omega,
              by dsimp only; omega⟩
          · exact hwf e he'
        · intro hm
          simp at hm
        · intro _
          refine ⟨hnn, ?_⟩
          intro s'
          simp only [posQty, posAvail]
          try dsimp only
          by_cases hs' : s' = s
          · subst hs'
            have hsl := hslack s'
            simp only [posQty, posAvail, hpos] at hsl
            rw [alGet_alSet_self]
            simp only [Option.map_some', Option.getD_some] at hsl ⊢
            try dsimp only
            omega
          · have hsl := hslack s'
            simp only [posQty, posAvail] at hsl
            rw [alGet_alSet_ne _ hs']
            exact hsl
        · show p.cash + ↑q * pr + holdingsValue _ = _
          unfold holdingsValue
          dsimp only
          rw [sum_alSet (fun e => (e.2.quantity : ℚ) * e.2.cost) hN hpos]
          dsimp only
          push_cast
          ring

theorem released_nodup {p : Portfolio} (hBk : ∀ e ∈ p.pendingT1, alNodup e.2)
    (d : ℕ) : alNodup ((alGet p.pendingT1 d).getD []) := by
  cases halg : alGet p.pendingT1 d with
  | none => simp [alNodup]
  | some b => simpa using hBk (d, b) (alGet_mem halg)

theorem settleDay_inv {p : Portfolio} (hp : p.Inv) (d : ℕ) :
    (p.settleDay d).Inv ∧ (p.settleDay d).initialCash = p.initialCash ∧
    (p.settleDay d).tradeMode = p.tradeMode ∧
    (p.settleDay d).cash + holdingsValue (p.settleDay d) =
      p.cash + holdingsValue p := by
  obtain ⟨hN, hNp, hBk, hwf, ht0, ht1⟩ := hp
  rw [Portfolio.settleDay]
  by_cases hmode : p.tradeMode = TradeMode.t1
  swap
  · rw [if_pos hmode]
    exact ⟨⟨hN, hNp, hBk, hwf, ht0, ht1⟩, rfl, rfl, rfl⟩
  · obtain ⟨hnn, hslack⟩ := ht1 hmode
    rw [if_neg (not_not_intro hmode)]
    have hbrel := released_nodup hBk d
    have hsrn := settleRelease_nodup hN ((alGet p.pendingT1 d).getD [])
    refine ⟨⟨hsrn, alNodup_alDel hNp d, ?_, ?_, ?_, ?_⟩, rfl, rfl, ?_⟩
    · intro e he
      exact hBk e (mem_alDel he)
    · intro e he
      have hg := alGet_of_mem_nodup hsrn he
      rw [settleRelease_alGet hN hbrel e.1] at hg
      rcases Option.map_eq_some'.mp hg with ⟨pos, hpos, hpe⟩
      have hposwf : pos.wf := hwf (e.1, pos) (alGet_mem hpos)
      obtain ⟨hq0, ha0, haq⟩ := hposwf
      have hg0 : 0 ≤ (alGet ((alGet p.pendingT1 d).getD []) e.1).getD 0 :=
        bGetPend_nonneg hnn d e.1
      have hgs : (alGet ((alGet p.pendingT1 d).getD []) e.1).getD 0 ≤
          pendSumFor p.pendingT1 e.1 :=
        bGetPend_le_pendSumFor hNp hnn d e.1
      have hsl := hslack e.1
      simp only [posQty, posAvail, hpos, Option.map_some',
        Option.getD_some] at hsl
      rw [← hpe]
      exact ⟨by dsimp only; omega, by dsimp only; omega, by dsimp only; omega⟩
    · intro hm
      have hm2 : p.tradeMode = TradeMode.t0 := hm
      rw [hmode] at hm2
      cases hm2
    · intro _
      refine ⟨(fun e he => hnn e (mem_alDel he)), ?_⟩
      intro s
      have hg0 : 0 ≤ bGetPend p.pendingT1 d s := bGetPend_nonneg hnn d s
      have hpend' : pendSumFor (alDel p.pendingT1 d) s =
          pendSumFor p.pendingT1 s - bGetPend p.pendingT1 d s := by
        cases halg : alGet p.pendingT1 d with
        | none =>
          rw [alDel_of_not_mem ((alGet_eq_none_iff _ _).mp halg)]
          simp [bGetPend, halg, alGet_nil]
        | some b =>
          unfold pendSumFor
          rw [sum_alDel (fun e => ((alGet e.2 s).getD 0)) hNp halg]
          simp [bGetPend, halg]
      have hq' : alGet (settleRelease p.positions ((alGet p.pendingT1 d).getD []))
          s = (alGet p.positions s).map
            (fun pos => { pos with
              available := pos.available + bGetPend p.pendingT1 d s }) :=
        settleRelease_alGet hN hbrel s
      simp only [posQty, posAvail]
      try dsimp only
      rw [hpend', hq']
      have hsl := hslack s
      simp only [posQty, posAvail] at hsl
      cases hgs : alGet p.positions s with
      | none =>
        rw [hgs] at hsl
        simp only [Option.map_none', Option.getD_none] at hsl ⊢
        omega
      | some pos =>
        rw [hgs] at hsl
        simp only [Option.map_some', Option.getD_some] at hsl ⊢
        try dsimp only
        omega
    · show p.cash + _ = _
      unfold holdingsValue
      try dsimp only
      rw [settleRelease_holdings hN]

theorem settleDay_effect {p : Portfolio} (hp : p.Inv)
    (hmode : p.tradeMode = TradeMode.t1) (d : ℕ) :
    (∀ s, alGet (p.settleDay d).positions s =
      (alGet p.positions s).map
        (fun pos => { pos with
          available := pos.available + bGetPend p.pendingT1 d s })) ∧
    alGet (p.settleDay d).pendingT1 d = none := by
  obtain ⟨hN, hNp, hBk, hwf, ht0, ht1⟩ := hp
  rw [Portfolio.settleDay]
  rw [if_neg (not_not_intro hmode)]
  refine ⟨fun s => ?_, ?_⟩
  · exact settleRelease_alGet hN (released_nodup hBk d) s
  · exact alGet_alDel_self _ _

theorem applyOp_inv {p : Portfolio} {op : TradeOp} {p' : Portfolio}
    (hp : p.Inv) (h : p.applyOp op = some p') :
    p'.Inv ∧ p'.initialCash = p.initialCash ∧ p'.tradeMode = p.tradeMode := by
  cases op with
  | buy s q pr d =>
    have hb := h
    rw [Portfolio.applyOp] at hb
    obtain ⟨h1, h2, h3, _⟩ := buy_inv hp hb
    exact ⟨h1, h2, h3⟩
  | sell s q pr d =>
    rw [Portfolio.applyOp] at h
    cases hs : p.sell s q pr d with
    | none => rw [hs] at h; cases h
    | some rp =>
      cases rp with
      | mk r1 p1 =>
        rw [hs] at h
        obtain rfl := Option.some.inj h
        obtain ⟨h1, h2, h3, _⟩ := sell_inv hp hs
        exact ⟨h1, h2, h3⟩
  | settle d =>
    rw [Portfolio.applyOp] at h
    obtain rfl := Option.some.inj h
    obtain ⟨h1, h2, h3, _⟩ := settleDay_inv hp d
    exact ⟨h1, h2, h3⟩

theorem runOps_inv {ops : List TradeOp} {p p' : Portfolio}
    (hp : p.Inv) (h : p.runOps ops = some p') :
    p'.Inv ∧ p'.initialCash = p.initialCash ∧ p'.tradeMode = p.tradeMode := by
  induction ops generalizing p with
  | nil =>
    rw [Portfolio.runOps] at h
    obtain rfl := Option.some.inj h
    exact ⟨hp, rfl, rfl⟩
  | cons op ops ih =>
    rw [Portfolio.runOps] at h
    cases hop : p.applyOp op with
    | none => rw [hop] at h; cases h
    | some p1 =>
      rw [hop] at h
      obtain ⟨h1, h2, h3⟩ := applyOp_inv hp hop
      obtain ⟨g1, g2, g3⟩ := ih h1 h
      exact ⟨g1, g2.trans h2, g3.trans h3⟩

theorem runOpsPnl_spec {ops : List TradeOp} {p p' : Portfolio} {acc : ℚ}
    (hp : p.Inv) (h : p.runOpsPnl ops = some (p', acc)) :
    p'.Inv ∧ p'.initialCash = p.initialCash ∧ p'.tradeMode = p.tradeMode ∧
    p'.cash + holdingsValue p' = p.cash + holdingsValue p + acc := by
  induction ops generalizing p acc with
  | nil =>
    rw [Portfolio.runOpsPnl] at h
    simp only [Option.some.injEq, Prod.mk.injEq] at h
    obtain ⟨rfl, rfl⟩ := h
    exact ⟨hp, rfl, rfl, by ring⟩
  | cons op ops ih =>
    cases op with
    | buy s q pr d =>
      rw [Portfolio.runOpsPnl] at h
      cases hb : p.buy s q pr d with
      | none => rw [hb] at h; cases h
      | some p1 =>
        rw [hb] at h
        obtain ⟨h1, h2, h3, h4⟩ := buy_inv hp hb
        obtain ⟨g1, g2, g3, g4⟩ := ih h1 h
        refine ⟨g1, g2.trans h2, g3.trans h3, ?_⟩
        rw [g4, h4]
    | sell s q pr d =>
      rw [Portfolio.runOpsPnl] at h
      cases hs : p.sell s q pr d with
      | none => rw [hs] at h; cases h
      | some rp =>
        cases rp with
        | mk r1 p1 =>
          rw [hs] at h
          dsimp only at h
          cases hrec : p1.runOpsPnl ops with
          | none =>
            rw [hrec] at h
            simp at h
          | some pa =>
            cases pa with
            | mk pf acc1 =>
              rw [hrec] at h
              simp only [Option.some.injEq, Prod.mk.injEq] at h
              obtain ⟨rfl, rfl⟩ := h
              obtain ⟨h1, h2, h3, h4⟩ := sell_inv hp hs
              obtain ⟨g1, g2, g3, g4⟩ := ih h1 hrec
              refine ⟨g1, g2.trans h2, g3.trans h3, ?_⟩
              rw [g4, h4]
              ring
    | settle d =>
      rw [Portfolio.runOpsPnl] at h
      obtain ⟨h1, h2, h3, h4⟩ := settleDay_inv hp d
      obtain ⟨g1, g2, g3, g4⟩ := ih h1 h
      refine ⟨g1, g2.trans h2, g3.trans h3, ?_⟩
      rw [g4, h4]

theorem alDel_alDel {α β : Type} [DecidableEq α] (l : List (α × β)) (k : α) :
    alDel (alDel l k) k = alDel l k := by
  unfold alDel
  rw [List.filter_filter]
  simp

/-! ## Claims about the portfolio -/

/-- C1.  Position invariant preservation (P2): starting from any freshly
constructed portfolio (T+0 or T+1) and any sequence of `buy`/`sell`/
`settle_day` calls that all satisfy their preconditions, every stored
position satisfies `0 ≤ available ≤ quantity` (this holds at every
intermediate state since every prefix of `ops` is itself such a sequence);
and in T+1 mode a `settle_day(d)` call increases each held position's
`available` by exactly the quantity recorded for its symbol in
`pendingT1[d]` before the call, and removes the `pendingT1[d]` bucket. -/
theorem C1_position_invariant (c : ℚ) (mode : TradeMode) (p0 p : Portfolio)
    (ops : List TradeOp) (h0 : Portfolio.new c mode = some p0)
    (hrun : p0.runOps ops = some p) :
    (∀ e ∈ p.positions, 0 ≤ e.2.available ∧ e.2.available ≤ e.2.quantity) ∧
    (p.tradeMode = TradeMode.t1 → ∀ d : ℕ,
      (∀ s pos, alGet p.positions s = some pos →
        alGet (p.settleDay d).positions s =
          some { pos with
            available := pos.available + bGetPend p.pendingT1 d s }) ∧
      alGet (p.settleDay d).pendingT1 d = none) := by
  obtain ⟨hinv0, -, -, -, -, -⟩ := new_inv h0
  obtain ⟨hinv, -, -⟩ := runOps_inv hinv0 hrun
  refine ⟨?_, ?_⟩
  · obtain ⟨-, -, -, hwf, -, -⟩ := hinv
    intro e he
    obtain ⟨-, h2, h3⟩ := hwf e he
    exact ⟨h2, h3⟩
  · intro hm d
    obtain ⟨heff, hrem⟩ := settleDay_effect hinv hm d
    refine ⟨?_, hrem⟩
    intro s pos hpos
    rw [heff s, hpos]
    rfl

/-- Witness for C1: a concrete T+1 run (buy 10, settle, sell 4). -/
theorem C1_position_invariant_witness :
    (∀ e ∈ scC1p1.positions,
      0 ≤ e.2.available ∧ e.2.available ≤ e.2.quantity) ∧
    (scC1p1.tradeMode = TradeMode.t1 → ∀ d : ℕ,
      (∀ s pos, alGet scC1p1.positions s = some pos →
        alGet (scC1p1.settleDay d).positions s =
          some { pos with
            available := pos.available + bGetPend scC1p1.pendingT1 d s }) ∧
      alGet (scC1p1.settleDay d).pendingT1 d = none) :=
  C1_position_invariant 1000 TradeMode.t1 scC1p0 scC1p1 scC1ops
    (by repeat first
      | simp [Portfolio.new, scC1p0]
      | norm_num [Portfolio.new, scC1p0])
    (by repeat first
      | simp [scC1p0, scC1ops, scC1p1, Portfolio.runOps, Portfolio.applyOp,
          Portfolio.buy, Portfolio.sell, Portfolio.settleDay,
          Portfolio.getAvailableQuantity, validateTradeInput, pendAdd,
          settleRelease, alGet, alSet, alDel]
      | norm_num [scC1p0, scC1ops, scC1p1, Portfolio.runOps,
          Portfolio.applyOp, Portfolio.buy, Portfolio.sell,
          Portfolio.settleDay, Portfolio.getAvailableQuantity,
          validateTradeInput, pendAdd, settleRelease, alGet, alSet, alDel])

/-- C2.  Cash accounting identity (P1): for every sequence of portfolio
calls satisfying their preconditions (`settle_day` allowed — it moves no
cash), `cash + Σ quantity*avgCost` over held positions equals
`initialCash + Σ realizedPnl` over the values returned by the `sell`
calls, in exact rational arithmetic. -/
theorem C2_cash_identity (c : ℚ) (mode : TradeMode) (p0 p : Portfolio)
    (ops : List TradeOp) (pnlSum : ℚ) (h0 : Portfolio.new c mode = some p0)
    (hrun : p0.runOpsPnl ops = some (p, pnlSum)) :
    p.cash + holdingsValue p = p.initialCash + pnlSum ∧ p.initialCash = c := by
  obtain ⟨hinv0, hic, -, hcash, hpositions, -⟩ := new_inv h0
  obtain ⟨-, h2, -, h4⟩ := runOpsPnl_spec hinv0 hrun
  have hh0 : holdingsValue p0 = 0 := by
    unfold holdingsValue
    rw [hpositions]
    rfl
  have hinit : p.initialCash = c := h2.trans hic
  refine ⟨?_, hinit⟩
  rw [h4, hh0, hcash, hinit]
  ring

/-- Witness for C2: buy 10@5, settle, sell 10@6 realizes 10; the final
cash 1010 plus empty holdings equals 1000 + 10. -/
theorem C2_cash_identity_witness :
    scC2p1.cash + holdingsValue scC2p1 = scC2p1.initialCash + 10 ∧
    scC2p1.initialCash = 1000 :=
  C2_cash_identity 1000 TradeMode.t1 scC2p0 scC2p1 scC2ops 10
    (by repeat first
      | simp [Portfolio.new, scC2p0]
      | norm_num [Portfolio.new, scC2p0])
    (by repeat first
      | simp [scC2p0, scC2ops, scC2p1, Portfolio.runOpsPnl, Portfolio.buy,
          Portfolio.sell, Portfolio.settleDay,
          Portfolio.getAvailableQuantity, validateTradeInput, pendAdd,
          settleRelease, alGet, alSet, alDel]
      | norm_num [scC2p0, scC2ops, scC2p1, Portfolio.runOpsPnl,
          Portfolio.buy, Portfolio.sell, Portfolio.settleDay,
          Portfolio.getAvailableQuantity, validateTradeInput, pendAdd,
          settleRelease, alGet, alSet, alDel])

/-- C9.  `settle_day` is idempotent: settling the same date twice (with no
intervening call) equals settling it once — the first call removes the
`pendingT1[d]` bucket, so the second call releases nothing.  This holds for
every portfolio state, in both modes; in particular the backtest driver's
double settlement of each date (`_process_bar` and `run`'s T+1 branch)
releases each pending quantity exactly once. -/
theorem C9_settleDay_idempotent (p : Portfolio) (d : ℕ) :
    (p.settleDay d).settleDay d = p.settleDay d := by
  by_cases hm : p.tradeMode = TradeMode.t1
  swap
  · have h1 : p.settleDay d = p := by rw [Portfolio.settleDay, if_pos hm]
    rw [h1, h1]
  · have key : ∀ q : Portfolio, q.tradeMode = TradeMode.t1 →
        q.settleDay d = { q with
          positions := settleRelease q.positions ((alGet q.pendingT1 d).getD []),
          pendingT1 := alDel q.pendingT1 d } := by
      intro q hq
      rw [Portfolio.settleDay, if_neg (not_not_intro hq)]
    rw [key p hm]
    rw [key { p with
      positions := settleRelease p.positions ((alGet p.pendingT1 d).getD []),
      pendingT1 := alDel p.pendingT1 d } hm]
    have hnone : alGet (alDel p.pendingT1 d) d = none := alGet_alDel_self _ _
    dsimp only
    rw [hnone, alDel_alDel]
    rfl

/-! ## Event engine lemmas -/

theorem putFuel_not_running {st : EngineState} (e : Event) (fuel : ℕ)
    (h : st.running = false) : putFuel fuel st e = (st, []) := by
  cases fuel with
  | zero => rfl
  | succ fuel => simp [putFuel, h]

theorem runMiddlewares_raise_or_id {ms : List MiddlewareInfo} {e : Event}
    (st : EngineState)
    (hmw : ∀ m ∈ ms,
      m.beh e = MiddlewareRes.raises ∨ m.beh e = MiddlewareRes.pass e) :
    runMiddlewares st ms e =
      ({ st with errorCount := st.errorCount +
          ms.countP (fun m => decide (m.beh e = MiddlewareRes.raises)) },
       some e, ms.map (fun m => DispatchCall.mw m.id e)) := by
  induction ms generalizing st with
  | nil => simp [runMiddlewares]
  | cons m ms ih =>
    rcases hmw m (List.mem_cons_self m ms) with hcase | hcase
    · simp only [runMiddlewares, hcase]
      rw [ih _ (fun m' hm' => hmw m' (List.mem_cons_of_mem m hm'))]
      simp only [List.countP_cons, hcase, Prod.mk.injEq,
        EngineState.mk.injEq, decide_True, if_true, and_true, true_and]
      exact ⟨by omega, by simp⟩
    · simp only [runMiddlewares, hcase]
      rw [ih _ (fun m' hm' => hmw m' (List.mem_cons_of_mem m hm'))]
      simp [List.countP_cons, hcase]

theorem runMiddlewares_pass_or_drop {ms : List MiddlewareInfo} {e : Event}
    (st : EngineState)
    (hmw : ∀ m ∈ ms,
      m.beh e = MiddlewareRes.pass e ∨ m.beh e = MiddlewareRes.drop) :
    (runMiddlewares st ms e).1 = st ∧
    ((runMiddlewares st ms e).2.1 = some e ∨
      (runMiddlewares st ms e).2.1 = none) := by
  induction ms generalizing st with
  | nil => simp [runMiddlewares]
  | cons m ms ih =>
    rcases hmw m (List.mem_cons_self m ms) with hcase | hcase
    · simp only [runMiddlewares, hcase]
      exact ih _ (fun m' hm' => hmw m' (List.mem_cons_of_mem m hm'))
    · simp [runMiddlewares, hcase]

theorem runHandlers_no_emit
    (recur : EngineState → Event → EngineState × List DispatchCall)
    {hs : List HandlerInfo} {cur : Event} (st : EngineState)
    (hh : ∀ h ∈ hs,
      h.beh cur = HandlerRes.raises ∨ h.beh cur = HandlerRes.done) :
    runHandlers recur st hs cur =
      ({ st with errorCount := st.errorCount +
          hs.countP (fun h => decide (h.beh cur = HandlerRes.raises)) },
       hs.map (fun h => DispatchCall.hd h.id cur)) := by
  induction hs generalizing st with
  | nil => simp [runHandlers]
  | cons h hs ih =>
    rcases hh h (List.mem_cons_self h hs) with hcase | hcase
    · simp only [runHandlers, hcase]
      rw [ih _ (fun h' hm' => hh h' (List.mem_cons_of_mem h hm'))]
      simp only [List.countP_cons, hcase, Prod.mk.injEq,
        EngineState.mk.injEq, decide_True, if_true, and_true, true_and]
      exact ⟨by omega, by simp⟩
    · simp only [runHandlers, hcase]
      rw [ih _ (fun h' hm' => hh h' (List.mem_cons_of_mem h hm'))]
      simp [List.countP_cons, hcase]

theorem mem_insertHandler {h : HandlerInfo} {l : List HandlerInfo}
    {x : HandlerInfo} : x ∈ insertHandler h l ↔ x = h ∨ x ∈ l := by
  induction l with
  | nil => simp [insertHandler]
  | cons y ys ih =>
    by_cases hc : y.priority < h.priority
    · simp [insertHandler, hc]
    · simp [insertHandler, hc, ih]
      tauto

theorem insertHandler_ordered {l : List HandlerInfo} {h : HandlerInfo}
    (hl : handlerOrdered l) (hid : ∀ x ∈ l, x.id < h.id) :
    handlerOrdered (insertHandler h l) := by
  induction l with
  | nil =>
    simp [insertHandler, handlerOrdered]
  | cons x xs ih =>
    unfold handlerOrdered at hl
    rw [List.pairwise_cons] at hl
    obtain ⟨hx, hxs⟩ := hl
    by_cases hc : x.priority < h.priority
    · simp only [insertHandler, hc, if_true, reduceIte]
      unfold handlerOrdered
      rw [List.pairwise_cons]
      refine ⟨?_, List.Pairwise.cons hx hxs⟩
      intro y hy
      rcases List.mem_cons.mp hy with rfl | hy'
      · exact Or.inl hc
      · rcases hx y hy' with hlt | ⟨heq, -⟩
        · exact Or.inl (lt_trans hlt hc)
        · exact Or.inl (heq ▸ hc)
    · simp only [insertHandler, hc, if_false, reduceIte]
      unfold handlerOrdered
      rw [List.pairwise_cons]
      refine ⟨?_, ih hxs (fun y hy => hid y (List.mem_cons_of_mem x hy))⟩
      intro y hy
      rcases mem_insertHandler.mp hy with rfl | hy'
      · rcases lt_trichotomy y.priority x.priority with hlt | heq | hgt
        · exact Or.inl hlt
        · exact Or.inr ⟨heq.symm, hid x (List.mem_cons_self x xs)⟩
        · exact absurd hgt hc
      · exact hx y hy'

theorem insertHandler_append {l : List HandlerInfo} {h : HandlerInfo}
    (hall : ∀ x ∈ l, ¬ x.priority < h.priority) :
    insertHandler h l = l ++ [h] := by
  induction l with
  | nil => rfl
  | cons x xs ih =>
    have hx := hall x (List.mem_cons_self x xs)
    simp only [insertHandler, hx, if_false, reduceIte]
    rw [ih (fun y hy => hall y (List.mem_cons_of_mem x hy))]
    rfl

theorem foldl_insert_of_ordered :
    ∀ {l acc : List HandlerInfo}, handlerOrdered (acc ++ l) →
      l.foldl (fun a h => insertHandler h a) acc = acc ++ l := by
  intro l
  induction l with
  | nil => intro acc _; simp
  | cons h t ih =>
    intro acc hord
    rw [handlerOrdered] at hord
    rw [List.pairwise_append] at hord
    obtain ⟨hacc, hht, hcross⟩ := hord
    have hins : insertHandler h acc = acc ++ [h] := by
      apply insertHandler_append
      intro x hx
      rcases hcross x hx h (List.mem_cons_self h t) with hlt | ⟨heq, -⟩
      · omega
      · omega
    rw [List.foldl_cons, hins, ih]
    · simp
    · unfold handlerOrdered
      rw [List.pairwise_append]
      rw [List.pairwise_cons] at hht
      refine ⟨?_, hht.2, ?_⟩
      · rw [List.pairwise_append]
        refine ⟨hacc, by simp, ?_⟩
        intro x hx y hy
        rw [List.mem_singleton] at hy
        subst hy
        exact hcross x hx y (List.mem_cons_self y t)
      · intro x hx y hy
        rcases List.mem_append.mp hx with hx' | hx'
        · exact hcross x hx' y (List.mem_cons_of_mem h hy)
        · rw [List.mem_singleton] at hx'
          subst hx'
          exact hht.1 y hy

theorem sortHandlers_of_ordered {l : List HandlerInfo}
    (hl : handlerOrdered l) : sortHandlers l = l := by
  unfold sortHandlers
  have h0 : handlerOrdered (([] : List HandlerInfo) ++ l) := by simpa using hl
  simpa using foldl_insert_of_ordered h0

/-- The registration invariant: every handler list is ordered and all ghost
ids are below the running counter. -/
def EngineRegInv (st : EngineState) : Prop :=
  ∀ t, handlerOrdered (st.handlers t) ∧ ∀ h ∈ st.handlers t, h.id < st.nextId

theorem new_regInv : EngineRegInv EngineState.new := by
  intro t
  exact ⟨List.Pairwise.nil, fun h hh => by cases hh⟩

theorem register_regInv {st : EngineState} (hst : EngineRegInv st)
    (t : EventType) (beh : Event → HandlerRes) (priority : ℤ) :
    EngineRegInv (st.register t beh priority) := by
  intro t'
  obtain ⟨hordt, hidt⟩ := hst t
  obtain ⟨hordt', hidt'⟩ := hst t'
  rw [EngineState.register]
  by_cases hts : t' = t
  · simp only [hts, if_true, reduceIte]
    have hsort : sortHandlers (st.handlers t ++ [⟨st.nextId, priority, beh⟩]) =
        insertHandler ⟨st.nextId, priority, beh⟩ (st.handlers t) := by
      unfold sortHandlers
      rw [List.foldl_append]
      rw [show (st.handlers t).foldl (fun a h => insertHandler h a) [] =
        sortHandlers (st.handlers t) from rfl]
      rw [sortHandlers_of_ordered hordt]
      rfl
    rw [hsort]
    refine ⟨insertHandler_ordered hordt hidt, ?_⟩
    intro h hh
    rcases mem_insertHandler.mp hh with rfl | hh'
    · try dsimp only
      omega
    · have := hidt h hh'
      try dsimp only
      omega
  · simp only [hts, if_false, reduceIte]
    refine ⟨hordt', ?_⟩
    intro h hh
    have := hidt' h hh
    try dsimp only
    omega

theorem registerAll_regInv {rs : List (EventType × (Event → HandlerRes) × ℤ)} :
    ∀ {st : EngineState}, EngineRegInv st →
      EngineRegInv (st.registerAll rs) := by
  induction rs with
  | nil => intro st hst; exact hst
  | cons r rs ih =>
    intro st hst
    exact ih (register_regInv hst r.1 r.2.1 r.2.2)

theorem registerAll_middlewares
    (rs : List (EventType × (Event → HandlerRes) × ℤ)) :
    ∀ st : EngineState, (st.registerAll rs).middlewares = st.middlewares := by
  induction rs with
  | nil => intro st; rfl
  | cons r rs ih => intro st; exact ih _

/-! ## Claims about the event engine -/

/-- C4, counterexample.  The claim says an event `put` while the engine is
stopped is silently dropped *and counted*.  On the concrete stopped engine
`scC4engine` (which has a middleware and a handler registered and
`event_count = 0`), `put` performs no invocation and leaves `event_count`
at 0: the claimed increment to 1 does not happen. -/
theorem C4_counterexample :
    (putFuel 5 scC4engine scC4event).2 = [] ∧
    (putFuel 5 scC4engine scC4event).1.eventCount = 0 ∧
    ¬ ((putFuel 5 scC4engine scC4event).1.eventCount =
        scC4engine.eventCount + 1) :=
  ⟨rfl, rfl, by decide⟩

/-- C4, amended.  Whenever the engine is not running, `put(event)` returns
normally without invoking any middleware or handler (empty invocation
trace) and leaves the engine state — in particular both counters reported
by `get_stats` — completely unchanged; the dropped event is *not* counted. -/
theorem C4_drop_while_stopped (st : EngineState) (e : Event) (fuel : ℕ)
    (h : st.running = false) :
    putFuel fuel st e = (st, []) ∧
    (putFuel fuel st e).1.getStats = st.getStats := by
  refine ⟨putFuel_not_running e fuel h, ?_⟩
  rw [putFuel_not_running e fuel h]

/-- Witness for the amended C4 on the concrete stopped engine. -/
theorem C4_drop_while_stopped_witness :
    putFuel 5 scC4engine scC4event = (scC4engine, []) ∧
    (putFuel 5 scC4engine scC4event).1.getStats = scC4engine.getStats :=
  C4_drop_while_stopped scC4engine scC4event 5 rfl

/-- C5.  Error isolation (P4) during dispatch: with the engine running, if
every middleware either raises on the current event or passes it through
unchanged, and every handler of the event's type either raises or returns
`None`, then `put` returns normally (no exception reaches the caller), each
raising middleware and each raising handler adds exactly one to
`errorCount`, all `N` handlers are invoked — so the `N − K` non-raising
ones still execute — and every middleware and handler receives the event
unchanged (raising middlewares do not disturb the chain). -/
theorem C5_error_isolation (st : EngineState) (e : Event) (fuel : ℕ)
    (hrun : st.running = true)
    (hmw : ∀ m ∈ st.middlewares,
      m.beh e = MiddlewareRes.raises ∨ m.beh e = MiddlewareRes.pass e)
    (hh : ∀ h ∈ st.handlers e.type,
      h.beh e = HandlerRes.raises ∨ h.beh e = HandlerRes.done) :
    putFuel (fuel + 1) st e =
      ({ st with
          eventCount := st.eventCount + 1,
          errorCount := st.errorCount
            + st.middlewares.countP
                (fun m => decide (m.beh e = MiddlewareRes.raises))
            + (st.handlers e.type).countP
                (fun h => decide (h.beh e = HandlerRes.raises)) },
       st.middlewares.map (fun m => DispatchCall.mw m.id e)
         ++ (st.handlers e.type).map (fun h => DispatchCall.hd h.id e)) := by
  rw [putFuel]
  rw [hrun]
  simp only [Bool.not_true, Bool.false_eq_true, if_false, reduceIte]
  rw [runMiddlewares_raise_or_id _ hmw]
  dsimp only
  rw [runHandlers_no_emit (putFuel fuel) _ hh]

/-- Witness for C5: two middlewares (one raising) and three handlers on BAR
(two raising): `error_count` ends at 3, `event_count` at 1, and all five
callables are invoked with the original event. -/
theorem C5_error_isolation_witness :
    (putFuel 1 scC5engine scC5event).1.errorCount = 3 ∧
    (putFuel 1 scC5engine scC5event).1.eventCount = 1 ∧
    (putFuel 1 scC5engine scC5event).2 =
      [DispatchCall.mw 0 scC5event, DispatchCall.mw 1 scC5event,
       DispatchCall.hd 2 scC5event, DispatchCall.hd 3 scC5event,
       DispatchCall.hd 4 scC5event] := by
  rw [C5_error_isolation scC5engine scC5event 0 rfl
    (by
      intro m hm
      simp only [scC5engine, List.mem_cons, List.mem_singleton] at hm
      rcases hm with rfl | hm
      · exact Or.inl rfl
      · rcases hm with rfl | hm
        · exact Or.inr rfl
        · cases hm)
    (by
      intro h hh
      simp only [scC5engine, scC5event, reduceIte, List.mem_cons,
        List.mem_singleton, List.not_mem_nil, or_false] at hh
      rcases hh with rfl | rfl | rfl
      · exact Or.inl rfl
      · exact Or.inr rfl
      · exact Or.inl rfl)]
  refine ⟨?_, rfl, ?_⟩ <;> decide

/-- C6.  Handler ordering (P3): for any sequence of `register` calls
starting from a fresh engine, every handler list is in strictly descending
priority order with ties broken by registration order (the ghost `id`
records the registration index), and a dispatched event with no re-dispatch
invokes exactly the handlers of its type in that list order. -/
theorem C6_priority_ordering
    (regs : List (EventType × (Event → HandlerRes) × ℤ))
    (st : EngineState) (e : Event) (fuel : ℕ)
    (hst : st =
      { EngineState.new.registerAll regs with running := true })
    (hh : ∀ h ∈ st.handlers e.type,
      h.beh e = HandlerRes.raises ∨ h.beh e = HandlerRes.done) :
    handlerOrdered (st.handlers e.type) ∧
    (putFuel (fuel + 1) st e).2 =
      (st.handlers e.type).map (fun h => DispatchCall.hd h.id e) := by
  have hreg : EngineRegInv (EngineState.new.registerAll regs) :=
    registerAll_regInv new_regInv
  have hord : handlerOrdered (st.handlers e.type) := by
    rw [hst]
    exact (hreg e.type).1
  refine ⟨hord, ?_⟩
  have hmw : st.middlewares = [] := by
    rw [hst]
    exact registerAll_middlewares regs EngineState.new
  have hrun : st.running = true := by rw [hst]
  rw [putFuel, hrun]
  simp only [Bool.not_true, Bool.false_eq_true, if_false, reduceIte]
  have hmw2 : ∀ m ∈ ({ st with eventCount := st.eventCount + 1 }
      : EngineState).middlewares,
      m.beh e = MiddlewareRes.raises ∨ m.beh e = MiddlewareRes.pass e := by
    intro m hm
    rw [show ({ st with eventCount := st.eventCount + 1 }
      : EngineState).middlewares = st.middlewares from rfl, hmw] at hm
    cases hm
  rw [runMiddlewares_raise_or_id _ hmw2]
  dsimp only
  rw [runHandlers_no_emit (putFuel fuel) _ hh]
  rw [show st.middlewares.map (fun m => DispatchCall.mw m.id e) =
    ([] : List DispatchCall) by rw [hmw]; rfl]
  rfl

/-- Witness for C6: registering priorities 10, 1, 10 on BAR yields the
list ordered 10 (id 0), 10 (id 2), 1 (id 1) — descending priority, ties in
registration order — and dispatch invokes them in exactly that order. -/
theorem C6_priority_ordering_witness :
    handlerOrdered
      (({ EngineState.new.registerAll scC6regs with running := true }
        : EngineState).handlers (Event.mk EventType.bar 0).type) ∧
    (putFuel 1 { EngineState.new.registerAll scC6regs with running := true }
      (Event.mk EventType.bar 0)).2 =
      (({ EngineState.new.registerAll scC6regs with running := true }
        : EngineState).handlers (Event.mk EventType.bar 0).type).map
        (fun h => DispatchCall.hd h.id (Event.mk EventType.bar 0)) :=
  C6_priority_ordering scC6regs _ (Event.mk EventType.bar 0) 0 rfl
    (by
      intro h hh
      have hlist : ({ EngineState.new.registerAll scC6regs with
          running := true } : EngineState).handlers
          (Event.mk EventType.bar 0).type =
          [⟨0, 10, scC6behA⟩, ⟨2, 10, scC6behA⟩, ⟨1, 1, scC6behA⟩] := rfl
      rw [hlist] at hh
      simp only [List.mem_cons, List.mem_singleton, List.not_mem_nil,
        or_false] at hh
      rcases hh with rfl | rfl | rfl <;> exact Or.inr rfl)

/-- C10, counterexample.  The claim: after `start()`, when no registered
START handler raises or re-dispatches, `get_stats` reports
`event_count = 1` and `error_count = 0`.  On `scC10engine` — which has *no*
handlers at all (so no START handler raises), but whose single middleware
raises — `start()` yields `error_count = 1`, refuting the claim as stated. -/
theorem C10_counterexample :
    scC10engine.handlers EventType.start = [] ∧
    (scC10engine.start 5).1.getStats = (true, 1, 1) ∧
    ¬ ((scC10engine.start 5).1.getStats = (true, 1, 0)) :=
  ⟨rfl, rfl, by decide⟩

/-- C10, amended.  `start()` sets `running` and resets both counters before
dispatching the synthetic START event, so — whatever the counters held
before — when every middleware passes the event through unchanged or drops
it (without raising) and no registered START handler raises or
re-dispatches, `get_stats` afterwards reports `running = true`,
`event_count = 1` (the synthetic START event itself) and `error_count = 0`;
counters never carry over from before the most recent `start()`. -/
theorem putFuel_benign (st : EngineState) (e : Event) (fuel : ℕ)
    (hrun : st.running = true)
    (hmw : ∀ m ∈ st.middlewares,
      m.beh e = MiddlewareRes.pass e ∨ m.beh e = MiddlewareRes.drop)
    (hh : ∀ h ∈ st.handlers e.type, h.beh e = HandlerRes.done) :
    (putFuel (fuel + 1) st e).1 =
      { st with eventCount := st.eventCount + 1 } := by
  rw [putFuel]
  rw [hrun]
  simp only [Bool.not_true, Bool.false_eq_true, if_false, reduceIte]
  obtain ⟨h1, hcur⟩ := runMiddlewares_pass_or_drop
    { st with running := true, eventCount := st.eventCount + 1 } hmw
  cases heq : runMiddlewares
      { st with running := true, eventCount := st.eventCount + 1 }
      st.middlewares e with
  | mk a bc =>
    cases bc with
    | mk cur tr =>
      rw [heq] at h1 hcur
      dsimp only at h1 hcur
      subst h1
      rcases hcur with hc | hc <;> subst hc
      · dsimp only
        rw [runHandlers_no_emit (putFuel fuel) _
          (fun h hmem => Or.inr (hh h hmem))]
        have hz : (st.handlers e.type).countP
            (fun h => decide (h.beh e = HandlerRes.raises)) = 0 := by
          rw [List.countP_eq_zero]
          intro h hmem
          rw [hh h hmem]
          decide
        rw [hz]
        simp [hrun]
      · simp [hrun]

theorem C10_start_counters (st : EngineState) (fuel : ℕ)
    (hmw : ∀ m ∈ st.middlewares,
      m.beh startEvent = MiddlewareRes.pass startEvent ∨
        m.beh startEvent = MiddlewareRes.drop)
    (hh : ∀ h ∈ st.handlers EventType.start,
      h.beh startEvent = HandlerRes.done) :
    (st.start (fuel + 1)).1.getStats = (true, 1, 0) := by
  rw [EngineState.start]
  have hb := putFuel_benign
    { st with running := true, eventCount := 0, errorCount := 0 }
    startEvent fuel rfl hmw hh
  rw [hb]
  rfl

/-- Witness for the amended C10: a pass-through middleware and one benign
START handler, with stale counters 9/9 before the call. -/
theorem C10_start_counters_witness :
    (scC10wEngine.start 3).1.getStats = (true, 1, 0) :=
  C10_start_counters scC10wEngine 2
    (by
      intro m hm
      simp only [scC10wEngine, List.mem_singleton] at hm
      subst hm
      exact Or.inl rfl)
    (by
      intro h hh
      simp only [scC10wEngine, reduceIte, List.mem_singleton] at hh
      subst hh
      rfl)

/-! ## Plugin manager: dependency-resolution lemmas -/

theorem registerAll_names_nodup {ps : List PluginR} {m : Manager}
    (h : Manager.registerAll ps = some m) : m.names.Nodup := by
  induction ps generalizing m with
  | nil =>
    simp only [Manager.registerAll, Option.some.injEq] at h
    subst h
    exact List.nodup_nil
  | cons p ps ih =>
    rw [Manager.registerAll] at h
    cases hps : Manager.registerAll ps with
    | none => rw [hps] at h; cases h
    | some m' =>
      rw [hps] at h
      dsimp only at h
      by_cases hc : (m'.plugins.map Prod.fst).contains p.name
      · rw [if_pos hc] at h; cases h
      · rw [if_neg hc] at h
        simp only [Option.some.injEq] at h
        subst h
        have hnm : p.name ∉ m'.plugins.map Prod.fst := by
          intro hmem
          exact hc (List.contains_iff_exists_mem_beq.mpr
            ⟨p.name, hmem, by simp⟩)
        have hih := ih hps
        rw [Manager.names] at hih ⊢
        simp only [List.map_cons]
        exact List.nodup_cons.mpr ⟨hnm, hih⟩

theorem mem_names_of_dependsOn {m : Manager} {p d : String}
    (h : m.DependsOn p d) : p ∈ m.names := by
  rw [Manager.DependsOn, Manager.depsOf] at h
  by_cases hm : p ∈ m.plugins.map Prod.fst
  · exact hm
  · rw [(alGet_eq_none_iff m.plugins p).mpr hm] at h
    simp at h

theorem mem_names_of_mem_dependentsOf {m : Manager} {c x : String}
    (h : x ∈ m.dependentsOf c) : x ∈ m.names := by
  rw [Manager.dependentsOf] at h
  rcases List.mem_flatMap.mp h with ⟨e, he, hx⟩
  rcases List.mem_map.mp hx with ⟨_, _, hx1⟩
  subst hx1
  exact List.mem_map_of_mem Prod.fst he

/-- The length of the sub-list of occurrences of `c` is the count of `c`. -/
theorem length_filter_eq_count (c : String) (L : List String) :
    (L.filter (fun x => decide (x = c))).length = L.count c := by
  induction L with
  | nil => rfl
  | cons x L ih =>
    by_cases h : x = c
    · subst h
      simp [List.filter_cons, List.count_cons, ih]
    · simp [List.filter_cons, h, List.count_cons, ih]

theorem count_map_const (b n : String) (L : List String) :
    (L.map (fun _ => b)).count n = if b = n then L.length else 0 := by
  induction L with
  | nil => by_cases h : b = n <;> simp [h]
  | cons x L ih =>
    rw [List.map_cons, List.count_cons, ih]
    by_cases h : b = n
    · subst h
      simp
    · simp [h]

/-- Edge multiplicity transposed: `n` occurs in the reverse-edge list of `c`
once per occurrence of `c` among `n`'s dependencies (names must be unique,
which `register` enforces). -/
theorem count_dependentsOf_aux (c n : String) :
    ∀ l : List (String × PluginR), (l.map Prod.fst).Nodup →
    ((Manager.mk l).dependentsOf c).count n
      = ((Manager.mk l).depsOf n).count c := by
  intro l
  induction l with
  | nil => intro _; rfl
  | cons e l ih =>
    intro hnd
    rw [List.map_cons, List.nodup_cons] at hnd
    have h1 : (Manager.mk (e :: l)).dependentsOf c
        = ((e.2.dependencies.filter (fun x => decide (x = c))).map
            (fun _ => e.1)) ++ (Manager.mk l).dependentsOf c := by
      rw [Manager.dependentsOf, Manager.dependentsOf, List.flatMap_cons]
    rw [h1, List.count_append, count_map_const, ih hnd.2]
    by_cases he : e.1 = n
    · rw [if_pos he, length_filter_eq_count]
      have hget : alGet l n = none := (alGet_eq_none_iff l n).mpr (he ▸ hnd.1)
      have hd1 : (Manager.mk l).depsOf n = [] := by
        rw [Manager.depsOf]
        dsimp only
        rw [hget]
        rfl
      have hd2 : (Manager.mk (e :: l)).depsOf n = e.2.dependencies := by
        rw [Manager.depsOf]
        dsimp only
        rw [alGet_cons, if_pos he]
        rfl
      rw [hd1, hd2]
      simp
    · rw [if_neg he]
      have hd2 : (Manager.mk (e :: l)).depsOf n = (Manager.mk l).depsOf n := by
        rw [Manager.depsOf, Manager.depsOf]
        dsimp only
        rw [alGet_cons, if_neg he]
      rw [hd2]
      simp

theorem count_dependentsOf (m : Manager) (hnd : m.names.Nodup) (c n : String) :
    (m.dependentsOf c).count n = (m.depsOf n).count c := by
  have := count_dependentsOf_aux c n m.plugins (by rw [Manager.names] at hnd; exact hnd)
  exact this

theorem depsOf_of_mem_dependentsOf {m : Manager} (hnd : m.names.Nodup)
    {c x : String} (h : x ∈ m.dependentsOf c) : c ∈ m.depsOf x := by
  have hpos := List.count_pos_iff.mpr h
  rw [count_dependentsOf m hnd] at hpos
  exact List.count_pos_iff.mp hpos

/-- Splitting the not-yet-settled count of a dependency list when `c` is
appended to the settled prefix `order`. -/
theorem countP_not_mem_append_single (order : List String) (c : String)
    (hc : c ∉ order) (L : List String) :
    L.countP (fun d => decide (d ∉ order ++ [c])) + L.count c
      = L.countP (fun d => decide (d ∉ order)) := by
  induction L with
  | nil => rfl
  | cons d L ih =>
    rw [List.countP_cons, List.countP_cons, List.count_cons]
    have e0 : ((if false = true then 1 else 0) : ℕ) = 0 := rfl
    have e1 : ((if true = true then 1 else 0) : ℕ) = 1 := rfl
    by_cases h : d = c
    · subst h
      have h1 : (decide (d ∉ order ++ [d])) = false := by simp
      have h2 : (decide (d ∉ order)) = true := by simp [hc]
      have h3 : (d == d) = true := by simp
      rw [h1, h2, h3, e0, e1]
      omega
    · have h1 : (decide (d ∉ order ++ [c])) = decide (d ∉ order) := by
        simp [List.mem_append, h]
      have h2 : (d == c) = false := by simp [h]
      rw [h1, h2, e0]
      omega

/-- Loop invariant of `_resolve_order`'s Kahn iteration: `order` is the
duplicate-free list of already-emitted plugins, each emitted after all of
its dependencies; `indeg n` counts `n`'s not-yet-emitted dependency edges;
and `queue` holds exactly the not-yet-emitted plugins with no pending
dependency edge. -/
structure KahnInv (m : Manager) (indeg : String → ℤ)
    (queue order : List String) : Prop where
  orderNodup : order.Nodup
  queueNodup : queue.Nodup
  queueMem : ∀ n ∈ queue, n ∈ m.names ∧ n ∉ order
  orderMem : ∀ n ∈ order, n ∈ m.names
  indegEq : ∀ n ∈ m.names,
    indeg n = ((m.depsOf n).countP (fun d => decide (d ∉ order)) : ℤ)
  queueIff : ∀ n ∈ m.names, (n ∈ queue ↔ (n ∉ order ∧ indeg n = 0))
  depsBefore : ∀ p ∈ order, ∀ d ∈ m.depsOf p, List.Sublist [d, p] order

/-- Effect of the neighbor-update loop `kahnDecr` on the invariant state:
starting from an indegree function that still owes one decrement per entry
of `L` and a queue that is exact for it, the loop ends with the settled
indegree function and an exact queue. -/
theorem kahnDecr_spec (m : Manager) (ord : List String) :
    ∀ (L : List String) (indeg : String → ℤ) (q : List String),
    (∀ x ∈ L, x ∈ m.names ∧ x ∉ ord) →
    q.Nodup →
    (∀ x ∈ q, x ∈ m.names ∧ x ∉ ord) →
    (∀ x ∈ m.names, indeg x
      = ((m.depsOf x).countP (fun d => decide (d ∉ ord)) : ℤ) + L.count x) →
    (∀ x ∈ m.names, (x ∈ q ↔ (x ∉ ord ∧ indeg x = 0))) →
    (kahnDecr L (indeg, q)).2.Nodup ∧
    (∀ x ∈ (kahnDecr L (indeg, q)).2, x ∈ m.names ∧ x ∉ ord) ∧
    (∀ x ∈ m.names, (kahnDecr L (indeg, q)).1 x
      = ((m.depsOf x).countP (fun d => decide (d ∉ ord)) : ℤ)) ∧
    (∀ x ∈ m.names, ((x ∈ (kahnDecr L (indeg, q)).2)
      ↔ (x ∉ ord ∧ (kahnDecr L (indeg, q)).1 x = 0))) := by
  intro L
  induction L with
  | nil =>
    intro indeg q _ hqn hqm hind hqi
    refine ⟨hqn, hqm, ?_, hqi⟩
    intro x hx
    have h := hind x hx
    simpa using h
  | cons n ns ih =>
    intro indeg q hL hqn hqm hind hqi
    have hn := hL n (by simp)
    have hnq : n ∉ q := by
      intro hmem
      have h0 := (hqi n hn.1).mp hmem
      have he := hind n hn.1
      rw [h0.2, List.count_cons_self] at he
      omega
    rw [kahnDecr]
    dsimp only
    apply ih
    · intro x hx
      exact hL x (List.mem_cons_of_mem n hx)
    · by_cases hv : indeg n - 1 = 0
      · rw [if_pos hv]
        refine List.nodup_append.mpr ⟨hqn, List.nodup_singleton n, ?_⟩
        intro x hx hx1
        rw [List.mem_singleton] at hx1
        subst hx1
        exact hnq hx
      · rw [if_neg hv]
        exact hqn
    · intro x hx
      by_cases hv : indeg n - 1 = 0
      · rw [if_pos hv] at hx
        rcases List.mem_append.mp hx with h | h
        · exact hqm x h
        · rw [List.mem_singleton] at h
          subst h
          exact hn
      · rw [if_neg hv] at hx
        exact hqm x hx
    · intro x hx
      by_cases hxn : x = n
      · subst hxn
        rw [if_pos rfl]
        have he := hind x hx
        rw [List.count_cons_self] at he
        omega
      · rw [if_neg hxn]
        have he := hind x hx
        rw [List.count_cons_of_ne hxn] at he
        exact he
    · intro x hx
      by_cases hxn : x = n
      · subst hxn
        rw [if_pos rfl]
        by_cases hv : indeg x - 1 = 0
        · rw [if_pos hv]
          constructor
          · intro _
            exact ⟨hn.2, hv⟩
          · intro _
            exact List.mem_append.mpr (Or.inr (by simp))
        · rw [if_neg hv]
          constructor
          · intro hmem
            exact absurd hmem hnq
          · intro hc
            exact absurd hc.2 hv
      · rw [if_neg hxn]
        have base := hqi x hx
        by_cases hv : indeg n - 1 = 0
        · rw [if_pos hv]
          constructor
          · intro hmem
            rcases List.mem_append.mp hmem with h | h
            · exact base.mp h
            · rw [List.mem_singleton] at h
              exact absurd h hxn
          · intro hc
            exact List.mem_append.mpr (Or.inl (base.mpr hc))
        · rw [if_neg hv]
          exact base

/-- Whatever `kahnLoop` returns under the invariant — even when the fuel
runs out — is a duplicate-free list of registered plugin names in which
every emitted plugin is preceded by each of its dependencies. -/
theorem kahnLoop_spec (m : Manager) (hnd : m.names.Nodup) :
    ∀ (fuel : ℕ) (indeg : String → ℤ) (queue order : List String),
    KahnInv m indeg queue order →
    (kahnLoop m fuel indeg queue order).Nodup ∧
    (∀ n ∈ kahnLoop m fuel indeg queue order, n ∈ m.names) ∧
    (∀ p ∈ kahnLoop m fuel indeg queue order, ∀ d ∈ m.depsOf p,
      List.Sublist [d, p] (kahnLoop m fuel indeg queue order)) := by
  intro fuel
  induction fuel with
  | zero =>
    intro indeg queue order hI
    rw [kahnLoop]
    exact ⟨hI.orderNodup, hI.orderMem, hI.depsBefore⟩
  | succ fuel ih =>
    intro indeg queue order hI
    cases queue with
    | nil =>
      rw [kahnLoop]
      exact ⟨hI.orderNodup, hI.orderMem, hI.depsBefore⟩
    | cons current rest =>
      rw [kahnLoop]
      apply ih
      have hcur := hI.queueMem current (by simp)
      have hindcur : indeg current = 0 :=
        ((hI.queueIff current hcur.1).mp (by simp)).2
      have hdeps0 : (m.depsOf current).countP
          (fun d => decide (d ∉ order)) = 0 := by
        have h := hI.indegEq current hcur.1
        rw [hindcur] at h
        exact_mod_cast h.symm
      have hdepsIn : ∀ d ∈ m.depsOf current, d ∈ order := by
        intro d hd
        by_contra hdo
        have h := List.countP_eq_zero.mp hdeps0 d hd
        simp [hdo] at h
      have hordNodup : (order ++ [current]).Nodup := by
        refine List.nodup_append.mpr
          ⟨hI.orderNodup, List.nodup_singleton current, ?_⟩
        intro x hx hx1
        rw [List.mem_singleton] at hx1
        subst hx1
        exact hcur.2 hx
      have hrestq := List.nodup_cons.mp hI.queueNodup
      have hL : ∀ x ∈ m.dependentsOf current,
          x ∈ m.names ∧ x ∉ order ++ [current] := by
        intro x hx
        have hxn : x ∈ m.names := mem_names_of_mem_dependentsOf hx
        have hcd : current ∈ m.depsOf x := depsOf_of_mem_dependentsOf hnd hx
        refine ⟨hxn, ?_⟩
        intro hxo
        rcases List.mem_append.mp hxo with hxo | hxo
        · have hsub := hI.depsBefore x hxo current hcd
          exact hcur.2 (hsub.subset (by simp))
        · rw [List.mem_singleton] at hxo
          subst hxo
          exact hcur.2 (hdepsIn x hcd)
      have hqm : ∀ x ∈ rest, x ∈ m.names ∧ x ∉ order ++ [current] := by
        intro x hx
        have h := hI.queueMem x (List.mem_cons_of_mem current hx)
        refine ⟨h.1, ?_⟩
        intro hxo
        rcases List.mem_append.mp hxo with hxo | hxo
        · exact h.2 hxo
        · rw [List.mem_singleton] at hxo
          subst hxo
          exact hrestq.1 hx
      have hind : ∀ x ∈ m.names, indeg x
          = ((m.depsOf x).countP
              (fun d => decide (d ∉ order ++ [current])) : ℤ)
            + (m.dependentsOf current).count x := by
        intro x hx
        rw [hI.indegEq x hx, count_dependentsOf m hnd current x]
        have h := countP_not_mem_append_single order current hcur.2
          (m.depsOf x)
        omega
      have hqi : ∀ x ∈ m.names, (x ∈ rest
          ↔ (x ∉ order ++ [current] ∧ indeg x = 0)) := by
        intro x hx
        constructor
        · intro hxr
          have hq := (hI.queueIff x hx).mp (List.mem_cons_of_mem current hxr)
          refine ⟨?_, hq.2⟩
          intro hmem
          rcases List.mem_append.mp hmem with h | h
          · exact hq.1 h
          · rw [List.mem_singleton] at h
            subst h
            exact hrestq.1 hxr
        · intro hc
          have hxor : x ∉ order := fun h =>
            hc.1 (List.mem_append.mpr (Or.inl h))
          have hxc : x ≠ current := fun h =>
            hc.1 (List.mem_append.mpr (Or.inr (by simp [h])))
          have hq := (hI.queueIff x hx).mpr ⟨hxor, hc.2⟩
          rcases List.mem_cons.mp hq with h | h
          · exact absurd h hxc
          · exact h
      obtain ⟨kn, km, kind, kqi⟩ := kahnDecr_spec m (order ++ [current])
        (m.dependentsOf current) indeg rest hL hrestq.2 hqm hind hqi
      refine ⟨hordNodup, kn, km, ?_, kind, kqi, ?_⟩
      · intro x hx
        rcases List.mem_append.mp hx with h | h
        · exact hI.orderMem x h
        · rw [List.mem_singleton] at h
          subst h
          exact hcur.1
      · intro p hp d hd
        rcases List.mem_append.mp hp with h | h
        · exact (hI.depsBefore p h d hd).trans
            (List.sublist_append_left order [current])
        · rw [List.mem_singleton] at h
          subst h
          have hdo := hdepsIn d hd
          exact (List.singleton_sublist.mpr hdo).append
            (List.Sublist.refl [p])

/-- The order `_resolve_order` computes is duplicate-free, contains only
registered names, and lists every plugin after all of its dependencies. -/
theorem resolveOrder_spec (m : Manager) (hnd : m.names.Nodup) :
    m.resolveOrder.Nodup ∧ (∀ n ∈ m.resolveOrder, n ∈ m.names) ∧
    (∀ p ∈ m.resolveOrder, ∀ d ∈ m.depsOf p,
      List.Sublist [d, p] m.resolveOrder) := by
  rw [Manager.resolveOrder]
  apply kahnLoop_spec m hnd
  refine ⟨List.nodup_nil, hnd.filter _, ?_, ?_, ?_, ?_, ?_⟩
  · intro n hn
    exact ⟨(List.mem_filter.mp hn).1, by simp⟩
  · intro n hn
    simp at hn
  · intro n _
    rw [Manager.indegInit]
    have h : (m.depsOf n).countP (fun d => decide (d ∉ ([] : List String)))
        = (m.depsOf n).length := by
      rw [List.countP_eq_length]
      intro a _
      simp
    rw [h]
  · intro n hn
    rw [List.mem_filter]
    constructor
    · intro h
      exact ⟨by simp, by simpa using h.2⟩
    · intro h
      exact ⟨hn, by simpa using h.2⟩
  · intro p hp
    simp at hp

/-- Reading off a successful `initialize`: the `setup` order is the resolved
order and it covers every registered plugin. -/
theorem initPlugins_ok {m : Manager} {order : List String}
    (h : initPlugins m = Except.ok order) :
    order = m.resolveOrder ∧ order.length = m.plugins.length := by
  rw [initPlugins] at h
  by_cases hc : m.checkDependencies
  · rw [hc] at h
    simp only [Bool.not_true, Bool.false_eq_true, if_false] at h
    cases hd : m.detectCycles with
    | error u => rw [hd] at h; cases h
    | ok u =>
      rw [hd] at h
      dsimp only at h
      by_cases hlen : m.resolveOrder.length ≠ m.plugins.length
      · rw [if_pos hlen] at h
        cases h
      · rw [if_neg hlen] at h
        simp only [Except.ok.injEq] at h
        subst h
        exact ⟨rfl, by omega⟩
  · rw [Bool.not_eq_true] at hc
    rw [hc] at h
    simp only [Bool.not_false, if_true] at h
    cases h

/-- In a duplicate-free list, the two-element-sublist (strictly-before)
relation is transitive. -/
theorem sublist_pair_trans {l : List String} (hnd : l.Nodup) :
    ∀ {a b c : String}, List.Sublist [a, b] l → List.Sublist [b, c] l →
    List.Sublist [a, c] l := by
  induction l with
  | nil =>
    intro a b c h1 _
    simp at h1
  | cons o l ih =>
    intro a b c h1 h2
    have hol := (List.nodup_cons.mp hnd).1
    have hl := (List.nodup_cons.mp hnd).2
    cases h1 with
    | cons _ h1 =>
      have hb : b ∈ l := h1.subset (by simp)
      cases h2 with
      | cons _ h2 => exact List.Sublist.cons o (ih hl h1 h2)
      | cons₂ _ h2 => exact absurd hb hol
    | cons₂ _ h1 =>
      have hb : b ∈ l := h1.subset (by simp)
      cases h2 with
      | cons _ h2 =>
        have hc : List.Sublist [c] l :=
          ((List.sublist_cons_self b [c]).trans h2).trans
            (List.Sublist.refl l)
        exact List.Sublist.cons₂ _ hc
      | cons₂ _ h2 => exact absurd hb hol

/-- In a duplicate-free list no element is strictly before itself. -/
theorem not_sublist_pair_self {l : List String} (hnd : l.Nodup) (a : String) :
    ¬ List.Sublist [a, a] l := by
  intro h
  have hc := h.count_le a
  have h1 := List.nodup_iff_count_le_one.mp hnd a
  simp [List.count_cons] at hc
  omega

/-- C7.  Plugin lifecycle order (P5/P6): for every set of registered
plugins, whenever `initialize(context)` returns normally it has called
`setup` exactly once per registered plugin (the call sequence is a
permutation of the registered names, with count one each), in an order in
which each plugin's declared dependencies complete `setup` strictly before
that plugin's `setup` begins, and `shutdown(context)` then calls `teardown`
in exactly the reverse of that order; if the dependency graph contains a
cycle, `initialize` raises an error and no plugin's `setup` is called (the
error return precedes the `setup` loop). -/
theorem C7_plugin_lifecycle (ps : List PluginR) (m : Manager)
    (hreg : Manager.registerAll ps = some m) :
    (∀ order, initPlugins m = Except.ok order →
      List.Perm order m.names ∧
      (∀ n ∈ m.names, order.count n = 1) ∧
      (∀ p d, m.DependsOn p d → List.Sublist [d, p] order) ∧
      shutdownPlugins order = order.reverse) ∧
    (m.HasCycle → ∃ s, initPlugins m = Except.error s) := by
  have hnd : m.names.Nodup := registerAll_names_nodup hreg
  have main : ∀ order, initPlugins m = Except.ok order →
      List.Perm order m.names ∧
      (∀ n ∈ m.names, order.count n = 1) ∧
      (∀ p d, m.DependsOn p d → List.Sublist [d, p] order) ∧
      shutdownPlugins order = order.reverse := by
    intro order hok
    obtain ⟨hord, hlen⟩ := initPlugins_ok hok
    subst hord
    obtain ⟨hN, hM, hB⟩ := resolveOrder_spec m hnd
    have hperm : List.Perm m.resolveOrder m.names := by
      have hsp := hN.subperm (fun x hx => hM x hx)
      apply hsp.perm_of_length_le
      have he : m.names.length = m.plugins.length := by
        rw [Manager.names, List.length_map]
      omega
    refine ⟨hperm, ?_, ?_, rfl⟩
    · intro n hn
      rw [hperm.count_eq]
      exact List.count_eq_one_of_mem hnd hn
    · intro p d hpd
      have hp : p ∈ m.names := mem_names_of_dependsOn hpd
      exact hB p (hperm.mem_iff.mpr hp) d hpd
  refine ⟨main, ?_⟩
  intro hcyc
  obtain ⟨x, hx⟩ := hcyc
  cases hres : initPlugins m with
  | error s => exact ⟨s, rfl⟩
  | ok order =>
    exfalso
    obtain ⟨hperm, _, hDB, _⟩ := main order hres
    have hond : order.Nodup := hperm.nodup_iff.mpr hnd
    have key : ∀ a b, Relation.TransGen m.DependsOn a b →
        List.Sublist [b, a] order := by
      intro a b htg
      induction htg with
      | single h => exact hDB _ _ h
      | tail _ h ihtg => exact sublist_pair_trans hond (hDB _ _ h) ihtg
    exact not_sublist_pair_self hond x (key x x hx)

/-- Witness for C7: the three-plugin chain `strategy → risk → data`
initializes in the order `data, risk, strategy` — each plugin after its
dependency — and shuts down in the reverse order. -/
theorem C7_plugin_lifecycle_witness :
    initPlugins mgrC7 = Except.ok ["data", "risk", "strategy"] ∧
    List.Perm ["data", "risk", "strategy"] mgrC7.names ∧
    (∀ p d, mgrC7.DependsOn p d →
      List.Sublist [d, p] ["data", "risk", "strategy"]) ∧
    shutdownPlugins ["data", "risk", "strategy"]
      = ["strategy", "risk", "data"] := by
  have h := C7_plugin_lifecycle psC7 mgrC7 (by rfl)
  have hok : initPlugins mgrC7 = Except.ok ["data", "risk", "strategy"] := by
    rfl
  obtain ⟨hperm, _, hdb, _⟩ := h.1 _ hok
  exact ⟨hok, hperm, hdb, rfl⟩

/-- Evaluation of the C3 scenario run: buy 10 CB001 at 100 (recorded), the
sell is skipped (available 0 under T+1 before settlement), the day-end
`settle_day` releases the pending 10. -/
theorem scC3run :
    runBacktest scC3cfg scC3strategy scC3data 1 1 = some scC3final := by
  have hBUY : upperStr "BUY" = "BUY" := by decide
  have hSELL : upperStr "SELL" = "SELL" := by decide
  have hMARKET : upperStr "MARKET" = "MARKET" := by decide
  repeat first
    | simp [runBacktest, runDays, processBar, processOrders, processOrder,
        normalizeOrders, matchOrderV2, calcCommission, hBUY, hSELL, hMARKET,
        Portfolio.new, Portfolio.buy, Portfolio.sell, Portfolio.settleDay,
        Portfolio.getAvailableQuantity, Portfolio.getTotalValue,
        validateTradeInput, pendAdd, settleRelease, alGet, alSet, alDel,
        sortDates, insertDate, scC3cfg, scC3strategy, scC3data, scC3final,
        List.dedup_cons_of_not_mem, List.dedup_nil]
    | norm_num [runBacktest, runDays, processBar, processOrders,
        processOrder, normalizeOrders, matchOrderV2, calcCommission, hBUY,
        hSELL, hMARKET, Portfolio.new, Portfolio.buy, Portfolio.sell,
        Portfolio.settleDay, Portfolio.getAvailableQuantity,
        Portfolio.getTotalValue, validateTradeInput, pendAdd, settleRelease,
        alGet, alSet, alDel, sortDates, insertDate, scC3cfg, scC3strategy,
        scC3data, scC3final, List.dedup_cons_of_not_mem, List.dedup_nil]

/-- C3, counterexample.  The claim asserts that the T+1 scenario (cash
100000, zero commission and slippage, strategy `[BUY 10 CB001, SELL 10
CB001]` on one date with close 100) ends day 1 — after the driver's
day-end `settle_day(date)` call — with `tradeCount = 1`, quantity 10 and
`available = 0`.  On that exact input the run yields available `10`, not
`0`: `settle_day(date)` releases the same-day pending bucket, so no state
satisfying the claimed conjunction exists. -/
theorem C3_counterexample :
    ¬ (∃ st, runBacktest scC3cfg scC3strategy scC3data 1 1 = some st ∧
        tradeCountOf st = 1 ∧
        (alGet st.portfolio.positions "CB001").map Position.quantity
          = some 10 ∧
        (alGet st.portfolio.positions "CB001").map Position.available
          = some 0) := by
  intro h
  obtain ⟨st, hrun, -, -, hav⟩ := h
  rw [scC3run] at hrun
  simp only [Option.some.injEq] at hrun
  subst hrun
  simp [scC3final, alGet] at hav

/-- C3, amended.  The T+1 scenario yields `tradeCount = 1` (the sell is
skipped: before settlement the same-day purchase has available 0), and at
the end of day 1 — after the driver's day-end `settle_day(date)` call of
step 9, which pops the date's pending bucket and releases it — the CB001
position has quantity 10 and available 10, with cash 99000. -/
theorem C3_t1_scenario :
    ∃ st, runBacktest scC3cfg scC3strategy scC3data 1 1 = some st ∧
      tradeCountOf st = 1 ∧
      (alGet st.portfolio.positions "CB001").map Position.quantity
        = some 10 ∧
      (alGet st.portfolio.positions "CB001").map Position.available
        = some 10 ∧
      st.portfolio.cash = 99000 := by
  refine ⟨scC3final, scC3run, ?_, ?_, ?_, ?_⟩ <;>
    simp [scC3final, tradeCountOf, alGet]

/-- C8.  Driver skip policy in `_process_bar`'s per-order loop: when the
matched order is a SELL and `Portfolio.sell` fails (a raised `ValueError`,
e.g. insufficient available quantity under T+1), the exception is caught
and the order skipped — the loop iteration returns normally with the
driver state unchanged (no trade recorded, cash and positions intact);
and a matched BUY whose amount plus commission exceeds current cash is
skipped by the cash guard — again a normal return with the state
unchanged — without `Portfolio.buy` being invoked. -/
theorem C8_driver_skip_policy (cfg : BTConfig) (st : DriverState)
    (order : NOrder) (d : ℕ) :
    (∀ tr, matchOrderV2 cfg st order d = some tr → ¬ tr.side = "BUY" →
      st.portfolio.sell tr.symbol tr.quantity tr.price d = none →
      processOrder cfg st order d = some st) ∧
    (∀ tr, matchOrderV2 cfg st order d = some tr → tr.side = "BUY" →
      st.portfolio.cash < tr.amount + calcCommission cfg tr.amount →
      processOrder cfg st order d = some st) := by
  constructor
  · intro tr hm hside hsell
    rw [processOrder, hm]
    dsimp only
    rw [if_neg hside, hsell]
  · intro tr hm hside hcash
    rw [processOrder, hm]
    dsimp only
    rw [if_pos hside, if_pos hcash]

/-- Witness for C8: on the concrete T+1 state `scC8st`, the failing SELL
(available 0) and the over-cash BUY (amount 1000 against cash 500) are
both skipped, leaving the driver state unchanged. -/
theorem C8_driver_skip_policy_witness :
    processOrder scC8cfg scC8st scC8sell 2 = some scC8st ∧
    processOrder scC8cfg scC8st scC8buy 2 = some scC8st := by
  have hSELL : upperStr "SELL" = "SELL" := by decide
  have hBUY : upperStr "BUY" = "BUY" := by decide
  constructor
  · refine (C8_driver_skip_policy scC8cfg scC8st scC8sell 2).1
      ⟨2, "CB001", "SELL", 10, 100, 1000⟩ ?_ (by decide) ?_
    · repeat first
        | simp [matchOrderV2, scC8cfg, scC8st, scC8sell, hSELL, alGet]
        | norm_num [matchOrderV2, scC8cfg, scC8st, scC8sell, hSELL, alGet]
    · repeat first
        | simp [Portfolio.sell, Portfolio.getAvailableQuantity,
            validateTradeInput, scC8st, alGet]
        | norm_num [Portfolio.sell, Portfolio.getAvailableQuantity,
            validateTradeInput, scC8st, alGet]
  · refine (C8_driver_skip_policy scC8cfg scC8st scC8buy 2).2
      ⟨2, "CB001", "BUY", 10, 100, 1000⟩ ?_ rfl ?_
    · repeat first
        | simp [matchOrderV2, scC8cfg, scC8st, scC8buy, hBUY, alGet]
        | norm_num [matchOrderV2, scC8cfg, scC8st, scC8buy, hBUY, alGet]
    · repeat first
        | simp [calcCommission, scC8cfg, scC8st]
        | norm_num [calcCommission, scC8cfg, scC8st]

end QF
